import Mathlib

/-!
# PodSerializer: the type registry and the type-id flattener

A shallow embedding of `PodSerializer/GetTypeIds.h`.

* C++ types are described by `CType`; `sizeof` of the fundamental types is a
  parameter of the development (`Config.sizeofPrim`), `sizeof` of an aggregate
  is recorded in its descriptor.
* Compile-time evaluation that is rejected by the compiler (a failed
  `enable_if`, a failed `REFLECTION_CHECK_TYPE`, an access outside a
  `constexpr` array) is a value of `Except Failure`.
* Headers of the repository that `GetTypeIds.h` includes but that are not part
  of the verified sources (`Support.h`, `Traits.h`, `SizeTArray.h`,
  `GetFieldsCount.h`, `Serialization.h`) are modelled from the specification;
  every such definition says so in its documentation.
-/

namespace reflection

/-! ## Fundamental types and the registry (`REFLECTION_REGISTER_TYPE`) -/

/-- The fundamental types registered in `GetTypeIds.h`, lines 45-67. -/
inductive Prim where
  | unsigned_char
  | unsigned_short
  | unsigned_int
  | unsigned_long
  | unsigned_long_long
  | signed_char
  | short
  | int
  | long
  | long_long
  | char
  | wchar_t
  | char16_t
  | char32_t
  | float
  | double
  | long_double
  | bool
  | void_ptr
  | const_void_ptr
  | volatile_void_ptr
  | const_volatile_void_ptr
  | nullptr_t
  deriving DecidableEq, Repr

/-- All registered fundamental types, in registration order. -/
def Prim.all : List Prim :=
  [.unsigned_char, .unsigned_short, .unsigned_int, .unsigned_long, .unsigned_long_long,
   .signed_char, .short, .int, .long, .long_long, .char, .wchar_t, .char16_t, .char32_t,
   .float, .double, .long_double, .bool, .void_ptr, .const_void_ptr, .volatile_void_ptr,
   .const_volatile_void_ptr, .nullptr_t]

/-- The overload set `_GetIdByType( IdenticalType<_Type> )` generated by the
23 uses of `REFLECTION_REGISTER_TYPE`. -/
def _GetIdByType : Prim → Nat
  | .unsigned_char           => 1
  | .unsigned_short          => 2
  | .unsigned_int            => 3
  | .unsigned_long           => 4
  | .unsigned_long_long      => 5
  | .signed_char             => 6
  | .short                   => 7
  | .int                     => 8
  | .long                    => 9
  | .long_long               => 10
  | .char                    => 11
  | .wchar_t                 => 12
  | .char16_t                => 13
  | .char32_t                => 14
  | .float                   => 15
  | .double                  => 16
  | .long_double             => 17
  | .bool                    => 18
  | .void_ptr                => 19
  | .const_void_ptr          => 20
  | .volatile_void_ptr       => 21
  | .const_volatile_void_ptr => 22
  | .nullptr_t               => 23

/-- The overload set `_GetTypeById( SizeT<_Integer> )` generated by the same
macro: the result is the type of the returned value.  For an integer without
a registration there is no overload (`none`). -/
def _GetTypeById : Nat → Option Prim
  | 1  => some .unsigned_char
  | 2  => some .unsigned_short
  | 3  => some .unsigned_int
  | 4  => some .unsigned_long
  | 5  => some .unsigned_long_long
  | 6  => some .signed_char
  | 7  => some .short
  | 8  => some .int
  | 9  => some .long
  | 10 => some .long_long
  | 11 => some .char
  | 12 => some .wchar_t
  | 13 => some .char16_t
  | 14 => some .char32_t
  | 15 => some .float
  | 16 => some .double
  | 17 => some .long_double
  | 18 => some .bool
  | 19 => some .void_ptr
  | 20 => some .const_void_ptr
  | 21 => some .volatile_void_ptr
  | 22 => some .const_volatile_void_ptr
  | 23 => some .nullptr_t
  | _  => none

/-! ## Type descriptors -/

/-- A C++ type as the flattener sees it. -/
inductive CType where
  /-- a registered fundamental type -/
  | prim (p : Prim)
  /-- an enumeration, with its `std::underlying_type` -/
  | enum (underlying : Prim)
  /-- an aggregate: its `sizeof` and the types of its declared members, in order -/
  | aggr (size : Nat) (fields : List CType)
  /-- any other type (a class with constructors, `std::string`, `int*`, ...), with its `sizeof` -/
  | other (size : Nat)
  deriving Repr

/-- What the development is parameterised by: `sizeof` of the fundamental
types (fixed by the platform ABI) and the bound `MAX_FIELDS` of the field
counter. -/
structure Config where
  sizeofPrim : Prim → Nat
  MAX_FIELDS : Nat

/-- The operator `sizeof( _Type )`. An enumeration has the size of its underlying type. -/
def sizeof (cfg : Config) : CType → Nat
  | .prim p => cfg.sizeofPrim p
  | .enum u => cfg.sizeofPrim u
  | .aggr size _ => size
  | .other size => size

/-- How a compile-time evaluation is rejected. -/
inductive Failure where
  /-- a type the library does not support (failed `enable_if` / `REFLECTION_CHECK_TYPE`,
  no viable overload, ill-formed initialisation) -/
  | UnsupportedType
  /-- an access outside the bounds of an array -/
  | OutOfRange
  /-- a read from a buffer that holds too little -/
  | BufferUnderrun
  deriving DecidableEq, Repr

/-- The trait `std::is_enum`. -/
def is_enum : CType → Bool
  | .enum _ => true
  | _ => false

/-- Modelled from the spec: `traits::is_registered_or_aliased` of `Traits.h`, which
is not among the sources.  It holds of the registered fundamental types and of the
enumerations (the spec's field classes Primitive and Enum; the comment in
`_Cast_Impl`: "Here we have fundamental registered type or enumeration"). -/
def is_registered_or_aliased : CType → Bool
  | .prim _ => true
  | .enum _ => true
  | _ => false

/-- Modelled from the spec: `is_supported_type` of `Support.h`, which is not among
the sources, also checked by `REFLECTION_CHECK_TYPE`.  The spec's `UnsupportedType`
is raised "when a type is not a decomposable aggregate"; the trait holds of the
aggregates. -/
def is_supported_type : CType → Bool
  | .aggr _ _ => true
  | _ => false

/-! ## `SizeTArray` -/

/-- The array `SizeTArray<N> a{ { 0 } }`: `N` entries, all zero. -/
def SizeTArray.zeros (N : Nat) : List Nat := List.replicate N 0

/-- Read of `data[i]`; outside the array the constant evaluation is rejected. -/
def readAt (data : List Nat) (i : Nat) : Except Failure Nat :=
  match data[i]? with
  | some v => .ok v
  | none => .error .OutOfRange

/-- Write `data[i] = v`; outside the array the constant evaluation is rejected. -/
def writeAt (data : List Nat) (i : Nat) (v : Nat) : Except Failure (List Nat) :=
  if i < data.length then .ok (data.set i v) else .error .OutOfRange

/-- Modelled from the spec: `SizeTArray::CountNonZeros` of `SizeTArray.h`, which is
not among the sources: the number of entries that are not `0`, counted by one pass. -/
def CountNonZeros (data : List Nat) : Nat :=
  data.foldl (fun n x => if x ≠ 0 then n + 1 else n) 0

/-- Modelled from the spec: `types::ArrayToNonZeros<N>::Run` of `SizeTArray.h`, which
is not among the sources: "a compaction pass drops every index whose id is still 0,
preserving relative order".  One pass over `src[0..N)`, with a cursor into `dst`. -/
def ArrayToNonZeros.Run (N : Nat) (src dst : List Nat) : Except Failure (List Nat) :=
  (fun st => st.1) <$> (List.range N).foldlM
    (fun (st : List Nat × Nat) i => do
      let v ← readAt src i
      if v ≠ 0 then do
        let dst ← writeAt st.1 st.2 v
        pure (dst, st.2 + 1)
      else pure st)
    (dst, 0)

/-! ## `GetFieldsCount` -/

/-- Modelled from the spec: the acceptance rule of aggregate initialisation that
`GetFieldsCount` probes (`GetFieldsCount.h` is not among the sources).  An aggregate
accepts a braced list of `N` universally-convertible placeholders exactly when it has
at least `N` members: a placeholder converts to the member's own type, so a nested
aggregate or an enumeration takes one placeholder. -/
def acceptsInit : CType → Nat → Bool
  | .aggr _ fields, N => decide (N ≤ fields.length)
  | _, _ => false

/-- Modelled from the spec: the search of `GetFieldsCount` ("binary search is valid
since acceptance is monotonic in N up to the true count, then rejects").  Between an
accepted `lo` and a rejected `hi`; `fuel` bounds the number of halvings. -/
def searchFieldsCount (accepts : Nat → Bool) : Nat → Nat → Nat → Nat
  | 0, lo, _ => lo
  | fuel + 1, lo, hi =>
    if hi ≤ lo + 1 then lo
    else
      let mid := (lo + hi) / 2
      if accepts mid then searchFieldsCount accepts fuel mid hi
      else searchFieldsCount accepts fuel lo mid

/-- Modelled from the spec: `GetFieldsCount<_Type>()` of `GetFieldsCount.h`, which is
not among the sources.  "Search a bounded range `[0, MAX_FIELDS]`"; "fails with
`UnsupportedType` if the type has user-defined constructors, private members, base
types, or exceeds `MAX_FIELDS`". -/
def GetFieldsCount (cfg : Config) (T : CType) : Except Failure Nat :=
  if !is_supported_type T then .error .UnsupportedType
  else if acceptsInit T (cfg.MAX_FIELDS + 1) then .error .UnsupportedType
  else .ok (searchFieldsCount (acceptsInit T) (cfg.MAX_FIELDS + 1) 0 (cfg.MAX_FIELDS + 1))

/-- Modelled from the spec: the instance-deducing overload `GetFieldsCount( obj )`;
the argument serves template parameter deduction only. -/
def GetFieldsCountOf {Obj : Type} (cfg : Config) (T : CType) (_obj : Obj) : Except Failure Nat :=
  GetFieldsCount cfg T

/-! ## The flattener -/

/-- The conversion operator of `_OffsetsUniversalInit<_Idx, _Size>` to `_Type`:
`pOffsets[_Idx] = _Idx != 0 ? pOffsets[_Idx - 1] + pSizes[_Idx - 1] : 0` and
`pSizes[_Idx] = sizeof( _Type )`. -/
def _OffsetsUniversalInit (cfg : Config) (Idx : Nat) (T : CType) (pOffsets pSizes : List Nat) :
    Except Failure (List Nat × List Nat) := do
  let v ← if Idx ≠ 0 then do
      let o ← readAt pOffsets (Idx - 1)
      let s ← readAt pSizes (Idx - 1)
      pure (o + s)
    else pure 0
  let pOffsets ← writeAt pOffsets Idx v
  let pSizes ← writeAt pSizes Idx (sizeof cfg T)
  pure (pOffsets, pSizes)

/-- The object `temporary1` of `_GetIdsRaw_Impl`: the members are initialised left to
right, the one at position `k` from `_OffsetsUniversalInit<_Idxs[k], sizeof...(_Idxs)>`.
More initialisers than members is ill-formed. -/
def temporary1 (cfg : Config) :
    List CType → List Nat → List Nat → List Nat → Except Failure (List Nat × List Nat)
  | _, [], offsets, sizes => .ok (offsets, sizes)
  | [], _ :: _, _, _ => .error .UnsupportedType
  | F :: Fs, Idx :: Idxs, offsets, sizes => do
    let st ← _OffsetsUniversalInit cfg Idx F offsets sizes
    temporary1 cfg Fs Idxs st.1 st.2

/-- The overload `_IndexedUniversalInit::Assign( size_t id )`: `pTypeIds[0] = id`, where
`pTypeIds` points at index `pTypeIds` of `idsRaw`. -/
def Assign (idsRaw : List Nat) (pTypeIds : Nat) (id : Nat) : Except Failure (List Nat) :=
  writeAt idsRaw (pTypeIds + 0) id

/-- The overload `_IndexedUniversalInit::Assign( const SizeTArray<_IdsCount>& ids )`:
`for (i = 0; i < _IdsCount; ++i) pTypeIds[i] = ids.data[i]`. -/
def AssignArray (idsRaw : List Nat) (pTypeIds : Nat) (IdsCount : Nat) (ids : List Nat) :
    Except Failure (List Nat) :=
  (List.range IdsCount).foldlM
    (fun raw i => do
      let v ← readAt ids i
      writeAt raw (pTypeIds + i) v)
    idsRaw

/-- The two overloads of `_IndexedUniversalInit::_EnumDispatch<_Type>`, selected by
`std::is_enum<_Type>`: an enumeration assigns the id of its underlying type, a
fundamental type its own id.  A type without an overload of `_GetIdByType` is rejected. -/
def _EnumDispatch (T : CType) (isEnum : Bool) (idsRaw : List Nat) (pTypeIds : Nat) :
    Except Failure (List Nat) :=
  match isEnum, T with
  | true, .enum underlying => Assign idsRaw pTypeIds (_GetIdByType underlying)
  | false, .prim p => Assign idsRaw pTypeIds (_GetIdByType p)
  | _, _ => .error .UnsupportedType

mutual

/-- The function template `_GetIdsByType`, enabled for `is_supported_type<_Type>`: the raw
array of the type `_Type`, of `sizeof( _Type )` entries. -/
def _GetIdsByType (cfg : Config) (T : CType) : Except Failure (List Nat) :=
  if is_supported_type T then do
    let N ← GetFieldsCount cfg T
    _GetIdsRaw_Impl cfg T (List.range N)
  else .error .UnsupportedType
termination_by (sizeOf T, 3)

/-- The function template `_GetIdsRaw_Impl<_Type, _Idxs...>`. -/
def _GetIdsRaw_Impl (cfg : Config) (T : CType) (Idxs : List Nat) : Except Failure (List Nat) :=
  match T with
  | .aggr size fields => do
    let idsRaw := SizeTArray.zeros size
    let offsets := SizeTArray.zeros Idxs.length
    let sizes := SizeTArray.zeros Idxs.length
    let st ← temporary1 cfg fields Idxs offsets sizes
    temporary2 cfg fields Idxs st.1 idsRaw
  | _ => .error .UnsupportedType
termination_by (sizeOf T, 2)

/-- The object `temporary2` of `_GetIdsRaw_Impl`: the members are initialised left to
right, the one at position `k` from
`_IndexedUniversalInit<_Idxs[k]>{ idsRaw.data + offsets.data[_Idxs[k]] }`. -/
def temporary2 (cfg : Config) (fields : List CType) (Idxs : List Nat) (offsets : List Nat)
    (idsRaw : List Nat) : Except Failure (List Nat) :=
  match fields, Idxs with
  | _, [] => .ok idsRaw
  | [], _ :: _ => .error .UnsupportedType
  | F :: Fs, Idx :: Idxs => do
    let pTypeIds ← readAt offsets Idx
    let idsRaw ← _Cast_Impl cfg F idsRaw pTypeIds
    temporary2 cfg Fs Idxs offsets idsRaw
termination_by (sizeOf fields, 1)

/-- The two overloads of `_IndexedUniversalInit::_Cast_Impl<_Type>`, selected by
`traits::is_registered_or_aliased<_Type>`, called from the conversion operator of
`_IndexedUniversalInit` to `_Type`. -/
def _Cast_Impl (cfg : Config) (T : CType) (idsRaw : List Nat) (pTypeIds : Nat) :
    Except Failure (List Nat) :=
  if is_registered_or_aliased T then
    _EnumDispatch T (is_enum T) idsRaw pTypeIds
  else do
    let ids ← _GetIdsByType cfg T
    AssignArray idsRaw pTypeIds (sizeof cfg T) ids
termination_by (sizeOf T, 4)

end

/-- The function template `_GetTypeIds_Impl<_Type, _Idxs...>`: the raw array with its
zeros removed. -/
def _GetTypeIds_Impl (cfg : Config) (T : CType) (Idxs : List Nat) : Except Failure (List Nat) := do
  let idsRaw ← _GetIdsRaw_Impl cfg T Idxs
  let idsWithoutZeros := SizeTArray.zeros (CountNonZeros idsRaw)
  ArrayToNonZeros.Run (sizeof cfg T) idsRaw idsWithoutZeros

/-- The user API `GetTypeIds<_Type>()`. -/
def GetTypeIds (cfg : Config) (T : CType) : Except Failure (List Nat) :=
  if is_supported_type T then do
    let N ← GetFieldsCount cfg T
    _GetTypeIds_Impl cfg T (List.range N)
  else .error .UnsupportedType

/-- The user API `GetTypeIds( const _Type& obj )`; the argument serves template
parameter deduction only. -/
def GetTypeIdsOf {Obj : Type} (cfg : Config) (T : CType) (_obj : Obj) : Except Failure (List Nat) :=
  if is_supported_type T then do
    let N ← GetFieldsCount cfg T
    _GetTypeIds_Impl cfg T (List.range N)
  else .error .UnsupportedType

/-! ## Reference notions, written from the specification

These definitions are what the flattener is compared with; none of them is used
by the embedding of the code above. -/

mutual

/-- The reference depth-first flattening (the spec's `LeafIdSequence`): one registry id
per leaf, in declaration order; an enumeration leaf has the id of its underlying type. -/
def LeafIdSequence : CType → List Nat
  | .prim p => [_GetIdByType p]
  | .enum underlying => [_GetIdByType underlying]
  | .aggr _ fields => LeafIdSequence.ofFields fields
  | .other _ => []

/-- The concatenation of the reference flattenings of a list of fields. -/
def LeafIdSequence.ofFields : List CType → List Nat
  | [] => []
  | F :: Fs => LeafIdSequence F ++ LeafIdSequence.ofFields Fs

end

mutual

/-- The total leaf count of a type: the number of primitive or enumeration fields
reached by recursing through the nested aggregates. -/
def leafCount : CType → Nat
  | .prim _ => 1
  | .enum _ => 1
  | .aggr _ fields => leafCount.ofFields fields
  | .other _ => 0

/-- The sum of the leaf counts of a list of fields. -/
def leafCount.ofFields : List CType → Nat
  | [] => 0
  | F :: Fs => leafCount F + leafCount.ofFields Fs

end

/-- The test "this entry is not the unused placeholder `0`". -/
def isNonZero (x : Nat) : Bool := decide (x ≠ 0)

/-- The sum of `sizeof` over a list of field types (no padding). -/
def sumSizes (cfg : Config) (fields : List CType) : Nat :=
  (fields.map (sizeof cfg)).sum

mutual

/-- The expected content of the raw array of a type: a leaf is its id followed by
zeros up to its size, an aggregate is the images of its fields, one after the other,
followed by zeros up to its size. -/
def rawImage (cfg : Config) : CType → List Nat
  | .prim p => _GetIdByType p :: List.replicate (cfg.sizeofPrim p - 1) 0
  | .enum underlying => _GetIdByType underlying :: List.replicate (cfg.sizeofPrim underlying - 1) 0
  | .aggr size fields =>
    rawImage.ofFields cfg fields ++ List.replicate (size - sumSizes cfg fields) 0
  | .other size => List.replicate size 0

/-- The images of a list of fields, one after the other. -/
def rawImage.ofFields (cfg : Config) : List CType → List Nat
  | [] => []
  | F :: Fs => rawImage cfg F ++ rawImage.ofFields cfg Fs

end

/-- The types the library supports as fields (`Supported`), in the spec's words "public
data members (primitives, enumerations, or nested aggregates of the same kind)": a
registered fundamental type or an enumeration (of size at least `1`, as every object type
of C++), or an aggregate that has at least one and at most `MAX_FIELDS` members, all
supported, and whose size is at least the sum of the sizes of its members (the layout rule
of C++ for members that do not share storage). -/
inductive Supported (cfg : Config) : CType → Prop where
  | prim (p : Prim) : 1 ≤ cfg.sizeofPrim p → Supported cfg (.prim p)
  | enum (underlying : Prim) : 1 ≤ cfg.sizeofPrim underlying → Supported cfg (.enum underlying)
  | aggr (size : Nat) (fields : List CType) :
      (∀ F ∈ fields, Supported cfg F) →
      fields ≠ [] →
      fields.length ≤ cfg.MAX_FIELDS →
      sumSizes cfg fields ≤ size →
      Supported cfg (.aggr size fields)

mutual

/-- The leaves of a type in depth-first declaration order, each as the registered
fundamental type whose id it has (an enumeration leaf: its underlying type). -/
def leafKinds : CType → List Prim
  | .prim p => [p]
  | .enum underlying => [underlying]
  | .aggr _ fields => leafKinds.ofFields fields
  | .other _ => []

/-- The leaves of a list of fields, one field after the other. -/
def leafKinds.ofFields : List CType → List Prim
  | [] => []
  | F :: Fs => leafKinds F ++ leafKinds.ofFields Fs

end

/-! ## Values, tuples and the binary serializer

`Reflection.h` (`ToTuple`) and `Serialization.h` (`BinarySerializer`, `BinaryBuffer`,
`StringStreamSerializer`, `StringStreamBuffer`) are not among the sources; the
definitions of this section are modelled from the specification. -/

/-- A value of an aggregate type, or of one of its fields: a leaf holds a content of type
`L`, an aggregate holds the values of its members in declaration order. -/
inductive Value (L : Type) where
  | leaf (content : L)
  | aggr (fields : List (Value L))

mutual

/-- Modelled from the spec: `ToTuple` of `Reflection.h`, the spec's `LeafTuple`:
"recursively decompose every nested-aggregate element ... and concatenate in order,
yielding a K-element flat tuple of only primitive/enum values". -/
def ToTuple {L : Type} : Value L → List L
  | .leaf content => [content]
  | .aggr fields => ToTuple.ofFields fields

/-- The leaf tuples of a list of member values, one after the other. -/
def ToTuple.ofFields {L : Type} : List (Value L) → List L
  | [] => []
  | v :: vs => ToTuple v ++ ToTuple.ofFields vs

end

mutual

/-- Modelled from the spec: the write through the leaf tuple of an object ("writes them
into the corresponding leaf field locations"): the leaves of the object are replaced, in
depth-first order, by the given contents; what is not consumed is returned. -/
def FromTuple {L : Type} : Value L → List L → Value L × List L
  | .leaf content, [] => (.leaf content, [])
  | .leaf _, c :: cs => (.leaf c, cs)
  | .aggr fields, cs =>
    let r := FromTuple.ofFields fields cs
    (.aggr r.1, r.2)

/-- The write through the leaf tuples of a list of member values. -/
def FromTuple.ofFields {L : Type} : List (Value L) → List L → List (Value L) × List L
  | [], cs => ([], cs)
  | v :: vs, cs =>
    let r := FromTuple v cs
    let rs := FromTuple.ofFields vs r.2
    (r.1 :: rs.1, rs.2)

end

/-- An object representation: the bytes of a leaf, in memory order. -/
abbrev ByteImage := List Nat

/-- Modelled from the spec: `BinaryBuffer`, the spec's `SerializationBuffer`: "append-only,
sequential-read byte ... stream". -/
abbrev BinaryBuffer := List Nat

mutual

/-- The value `x` is a value of the type `T`: a leaf holds an object representation of
`sizeof` bytes, an aggregate holds one value per member. -/
def HasType (cfg : Config) : Value ByteImage → CType → Prop
  | .leaf image, .prim p => image.length = cfg.sizeofPrim p
  | .leaf image, .enum underlying => image.length = cfg.sizeofPrim underlying
  | .aggr vs, .aggr _ fields => HasType.ofFields cfg vs fields
  | _, _ => False

/-- The values `vs` are values of the member types `Fs`, one for one. -/
def HasType.ofFields (cfg : Config) : List (Value ByteImage) → List CType → Prop
  | [], [] => True
  | v :: vs, F :: Fs => HasType cfg v F ∧ HasType.ofFields cfg vs Fs
  | _, _ => False

end

/-- The width `sizeof( decltype( _GetTypeById( SizeT<id>{} ) ) )` of the leaf type with
the given id. -/
def widthOfId (cfg : Config) (id : Nat) : Except Failure Nat :=
  match _GetTypeById id with
  | some k => .ok (cfg.sizeofPrim k)
  | none => .error .UnsupportedType

/-- Modelled from the spec: the loop of `BinarySerializer<T>::Serialize`: "appends, in
LeafIdSequence order, the fixed-width native byte image of each leaf value (enums
serialized as their underlying integer's image) — concatenation only, no framing". -/
def BinarySerializer.appendLeaves (cfg : Config) :
    List Nat → List ByteImage → BinaryBuffer → Except Failure BinaryBuffer
  | [], [], buffer => .ok buffer
  | id :: ids, image :: images, buffer => do
    let width ← widthOfId cfg id
    if image.length < width then .error .OutOfRange
    else BinarySerializer.appendLeaves cfg ids images (buffer ++ image.take width)
  | _, _, _ => .error .UnsupportedType

/-- Modelled from the spec: `BinarySerializer<T>::Serialize( x, buffer )`. -/
def BinarySerializer.Serialize (cfg : Config) (T : CType) (x : Value ByteImage)
    (buffer : BinaryBuffer) : Except Failure BinaryBuffer := do
  let ids ← GetTypeIds cfg T
  BinarySerializer.appendLeaves cfg ids (ToTuple x) buffer

/-- Modelled from the spec: the loop of `BinarySerializer<T>::Deserialize`: "reads the
same byte counts in the same order"; `BufferUnderrun` "when Deserialize requests more
bytes ... than remain in the buffer". -/
def BinarySerializer.readLeaves (cfg : Config) :
    List Nat → BinaryBuffer → Except Failure (List ByteImage × BinaryBuffer)
  | [], buffer => .ok ([], buffer)
  | id :: ids, buffer => do
    let width ← widthOfId cfg id
    if buffer.length < width then .error .BufferUnderrun
    else do
      let r ← BinarySerializer.readLeaves cfg ids (buffer.drop width)
      pure (buffer.take width :: r.1, r.2)

/-- Modelled from the spec: `BinarySerializer<T>::Deserialize( x, buffer )`: the bytes
read are written "into the corresponding leaf field locations" of the object; the result
is the object and the rest of the buffer. -/
def BinarySerializer.Deserialize (cfg : Config) (T : CType) (y : Value ByteImage)
    (buffer : BinaryBuffer) : Except Failure (Value ByteImage × BinaryBuffer) := do
  let ids ← GetTypeIds cfg T
  let r ← BinarySerializer.readLeaves cfg ids buffer
  pure ((FromTuple y r.1).1, r.2)

/-! ## The text serializer -/

/-- The content of a leaf as the text serializer sees it: an integer or a finite
floating-point number (both written in decimal), a character, or a character sequence of
variable length. A floating leaf `floating mantissa scale` is the number
`mantissa / 2 ^ scale`: every finite value of `float`, `double` and `long double` is of
this form (infinities and NaN are not values of the embedding, and zero has one sign). -/
inductive TextLeaf where
  | number (n : Int)
  | floating (mantissa : Int) (scale : Nat)
  | character (c : Char)
  | text (s : List Char)
  deriving DecidableEq, Repr

/-- The kind of a leaf: what the static type of the leaf tells the reader. -/
inductive LeafKind where
  | number
  | floating
  | character
  | text
  deriving DecidableEq, Repr

/-- The kind of the content of a leaf. -/
def TextLeaf.kind : TextLeaf → LeafKind
  | .number _ => .number
  | .floating _ _ => .floating
  | .character _ => .character
  | .text _ => .text

/-- Modelled from the spec: `StringStreamBuffer`, the spec's `SerializationBuffer`:
"append-only, sequential-read ... text stream". -/
abbrev StringStreamBuffer := List Char

/-- The delimiter that ends a decimal token. -/
def delimiter : Char := ' '

/-- The decimal digits of a natural number, most significant first. -/
def encodeNat (n : Nat) : List Char :=
  if n = 0 then ['0'] else (Nat.digits 10 n).reverse.map Nat.digitChar

/-- Reads decimal digits from the front of the text, into the accumulator. -/
def readDigits : List Char → Nat → Nat × List Char
  | [], acc => (acc, [])
  | c :: cs, acc =>
    if c.isDigit then readDigits cs (acc * 10 + (c.toNat - '0'.toNat)) else (acc, c :: cs)

/-- Reads a decimal token: digits, then the delimiter. -/
def decodeNat (s : List Char) : Option (Nat × List Char) :=
  match readDigits s 0 with
  | (n, c :: rest) => if c = delimiter then some (n, rest) else none
  | (_, []) => none

/-- The `width` least significant decimal digits of a number, most significant first,
with leading zeros. -/
def fixedDigits : Nat → Nat → List Nat
  | 0, _ => []
  | width + 1, v => fixedDigits width (v / 10) ++ [v % 10]

/-- The decimal expansion of the number `N / 10 ^ e` with exactly `e` digits after the
point: integer part, point, `e` fraction digits, delimiter. -/
def encodeFixed (N e : Nat) : List Char :=
  encodeNat (N / 10 ^ e) ++ '.' :: ((fixedDigits e (N % 10 ^ e)).map Nat.digitChar ++ [delimiter])

/-- Reads a decimal expansion: integer part, point, fraction digits, delimiter. The result
is the number of fraction digits `e` read and the number `N` with value `N / 10 ^ e`. -/
def decodeFixed (s : List Char) : Option (Nat × Nat × List Char) :=
  match readDigits s 0 with
  | (I, p :: frac) =>
    if p = '.' then
      match readDigits frac 0 with
      | (F, d :: rest) =>
        if d = delimiter then
          let e := frac.length - (rest.length + 1)
          some (I * 10 ^ e + F, e, rest)
        else none
      | (_, []) => none
    else none
  | (_, []) => none

/-- Modelled from the spec: the token of a leaf in `StringStreamSerializer` ("decimal for
numeric kinds, a delimiter-safe literal encoding for character/text-sequence leaves"): an
integer is its sign and its decimal digits, ended by the delimiter; a floating-point number
`mantissa / 2 ^ scale` is its sign and its exact decimal expansion
`(mantissa * 5 ^ scale) / 10 ^ scale`, with `scale` digits after the point, ended by the
delimiter; a character is itself; a character sequence is its length in decimal, the
delimiter, and its characters as they are. -/
def encodeLeaf : TextLeaf → List Char
  | .number n =>
    if n < 0 then '-' :: (encodeNat n.natAbs ++ [delimiter])
    else encodeNat n.natAbs ++ [delimiter]
  | .floating mantissa scale =>
    if mantissa < 0 then '-' :: encodeFixed (mantissa.natAbs * 5 ^ scale) scale
    else encodeFixed (mantissa.natAbs * 5 ^ scale) scale
  | .character c => [c]
  | .text s => encodeNat s.length ++ delimiter :: s

/-- Modelled from the spec: the reader of one token, given the kind of the leaf that is
read into ("so that decoding can re-split tokens deterministically"). -/
def decodeLeaf : LeafKind → List Char → Option (TextLeaf × List Char)
  | .number, [] => none
  | .number, c :: cs =>
    if c = '-' then
      match decodeNat cs with
      | some (n, rest) => some (.number (-(n : Int)), rest)
      | none => none
    else
      match decodeNat (c :: cs) with
      | some (n, rest) => some (.number (n : Int), rest)
      | none => none
  | .floating, [] => none
  | .floating, c :: cs =>
    if c = '-' then
      match decodeFixed cs with
      | some (N, e, rest) => some (.floating (-((N / 5 ^ e : Nat) : Int)) e, rest)
      | none => none
    else
      match decodeFixed (c :: cs) with
      | some (N, e, rest) => some (.floating ((N / 5 ^ e : Nat) : Int) e, rest)
      | none => none
  | .character, [] => none
  | .character, c :: rest => some (.character c, rest)
  | .text, cs =>
    match decodeNat cs with
    | some (n, rest) =>
      if rest.length < n then none else some (.text (rest.take n), rest.drop n)
    | none => none

/-- Modelled from the spec: `StringStreamSerializer<T>::Serialize( x, buffer )`: "same leaf
traversal/ordering contract as BinarySerializer, but each leaf is encoded as an
unambiguous, order-preserving textual token". -/
def StringStreamSerializer.Serialize (x : Value TextLeaf) (buffer : StringStreamBuffer) :
    StringStreamBuffer :=
  buffer ++ ((ToTuple x).map encodeLeaf).flatten

/-- Modelled from the spec: the loop of `StringStreamSerializer<T>::Deserialize`: one
token per leaf, of the kind of the leaf; `BufferUnderrun` "when Deserialize requests more
... tokens than remain in the buffer". -/
def StringStreamSerializer.readLeaves :
    List LeafKind → StringStreamBuffer → Except Failure (List TextLeaf × StringStreamBuffer)
  | [], buffer => .ok ([], buffer)
  | kind :: kinds, buffer =>
    match decodeLeaf kind buffer with
    | none => .error .BufferUnderrun
    | some (leaf, buffer) => do
      let r ← StringStreamSerializer.readLeaves kinds buffer
      pure (leaf :: r.1, r.2)

/-- Modelled from the spec: `StringStreamSerializer<T>::Deserialize( x, buffer )`: the
leaves of the object are read in order and written in place. -/
def StringStreamSerializer.Deserialize (y : Value TextLeaf) (buffer : StringStreamBuffer) :
    Except Failure (Value TextLeaf × StringStreamBuffer) := do
  let r ← StringStreamSerializer.readLeaves ((ToTuple y).map TextLeaf.kind) buffer
  pure ((FromTuple y r.1).1, r.2)

mutual

/-- Two values have the same structure: leaf against leaf, aggregate against aggregate
with as many members, member by member. -/
def SameShape {L : Type} : Value L → Value L → Prop
  | .leaf _, .leaf _ => True
  | .aggr vs, .aggr ws => SameShape.ofFields vs ws
  | _, _ => False

/-- Two lists of member values have the same structure. -/
def SameShape.ofFields {L : Type} : List (Value L) → List (Value L) → Prop
  | [], [] => True
  | v :: vs, w :: ws => SameShape v w ∧ SameShape.ofFields vs ws
  | _, _ => False

end

/-- Two values of the text serializer are values of one type: the same structure and, leaf
by leaf, the same kind. -/
def SameType (x y : Value TextLeaf) : Prop :=
  SameShape x y ∧ (ToTuple x).map TextLeaf.kind = (ToTuple y).map TextLeaf.kind

/-! ## Layout conditions and the shallow tuple -/

/-- The layout rule alone (`WellSized`): every fundamental type and every enumeration has
size at least `1`, and the size of every aggregate, at every depth, is at least the sum of
the sizes of its members.  Nothing is asked of the other types. -/
inductive WellSized (cfg : Config) : CType → Prop where
  | prim (p : Prim) : 1 ≤ cfg.sizeofPrim p → WellSized cfg (.prim p)
  | enum (underlying : Prim) : 1 ≤ cfg.sizeofPrim underlying → WellSized cfg (.enum underlying)
  | other (size : Nat) : WellSized cfg (.other size)
  | aggr (size : Nat) (fields : List CType) :
      (∀ F ∈ fields, WellSized cfg F) →
      sumSizes cfg fields ≤ size →
      WellSized cfg (.aggr size fields)

/-- A type that is laid out as C++ lays out objects (`WellFormed`): the layout rule holds
and every aggregate, at every depth, has at least one member.  Such a type may still have
members the library does not support. -/
inductive WellFormed (cfg : Config) : CType → Prop where
  | prim (p : Prim) : 1 ≤ cfg.sizeofPrim p → WellFormed cfg (.prim p)
  | enum (underlying : Prim) : 1 ≤ cfg.sizeofPrim underlying → WellFormed cfg (.enum underlying)
  | other (size : Nat) : WellFormed cfg (.other size)
  | aggr (size : Nat) (fields : List CType) :
      (∀ F ∈ fields, WellFormed cfg F) →
      fields ≠ [] →
      sumSizes cfg fields ≤ size →
      WellFormed cfg (.aggr size fields)

/-- Modelled from the spec: `ToTuplePrecise` of `Reflection.h`, which is not among the
sources, the spec's `ShallowTuple`: "read the N top-level fields into an N-element tuple,
preserving each field's own declared type (nested aggregates remain a single opaque
element)".  A value that is not an aggregate has no such tuple. -/
def ToTuplePrecise {L : Type} : Value L → Except Failure (List (Value L))
  | .aggr fields => .ok fields
  | .leaf _ => .error .UnsupportedType

/-! ## Nesting depth and the flattener under a bound on the depth of recursion -/

mutual

/-- The nesting depth of a type: `0` for a type that is not an aggregate, one more than
the greatest nesting depth of its members for an aggregate. -/
def nestingDepth : CType → Nat
  | .prim _ => 0
  | .enum _ => 0
  | .other _ => 0
  | .aggr _ fields => nestingDepth.ofFields fields + 1

/-- The greatest nesting depth of a list of member types. -/
def nestingDepth.ofFields : List CType → Nat
  | [] => 0
  | F :: Fs => max (nestingDepth F) (nestingDepth.ofFields Fs)

end

/-- The overloads of `_IndexedUniversalInit::_Cast_Impl<_Type>` as in `_Cast_Impl`, with the
call of `_GetIdsByType` given as a parameter; `none` stands for "the bound on the depth of
recursion was reached". -/
def _Cast_Impl_upTo (byType : CType → Option (Except Failure (List Nat))) (cfg : Config)
    (T : CType) (idsRaw : List Nat) (pTypeIds : Nat) : Option (Except Failure (List Nat)) :=
  if is_registered_or_aliased T then
    some (_EnumDispatch T (is_enum T) idsRaw pTypeIds)
  else
    match byType T with
    | none => none
    | some (.error e) => some (.error e)
    | some (.ok ids) => some (AssignArray idsRaw pTypeIds (sizeof cfg T) ids)

/-- The object `temporary2` as in `temporary2`, with the conversion given as a parameter. -/
def temporary2_upTo (cast : CType → List Nat → Nat → Option (Except Failure (List Nat))) :
    List CType → List Nat → List Nat → List Nat → Option (Except Failure (List Nat))
  | _, [], _, idsRaw => some (.ok idsRaw)
  | [], _ :: _, _, _ => some (.error .UnsupportedType)
  | F :: Fs, Idx :: Idxs, offsets, idsRaw =>
    match readAt offsets Idx with
    | .error e => some (.error e)
    | .ok pTypeIds =>
      match cast F idsRaw pTypeIds with
      | none => none
      | some (.error e) => some (.error e)
      | some (.ok idsRaw) => temporary2_upTo cast Fs Idxs offsets idsRaw

/-- The function template `_GetIdsRaw_Impl` as in `_GetIdsRaw_Impl`, with the conversion
given as a parameter. -/
def _GetIdsRaw_Impl_upTo (cast : CType → List Nat → Nat → Option (Except Failure (List Nat)))
    (cfg : Config) (T : CType) (Idxs : List Nat) : Option (Except Failure (List Nat)) :=
  match T with
  | .aggr size fields =>
    match temporary1 cfg fields Idxs (SizeTArray.zeros Idxs.length)
        (SizeTArray.zeros Idxs.length) with
    | .error e => some (.error e)
    | .ok st => temporary2_upTo cast fields Idxs st.1 (SizeTArray.zeros size)
  | _ => some (.error .UnsupportedType)

/-- The mutual recursion `_GetIdsByType -> _GetIdsRaw_Impl -> _Cast_Impl -> _GetIdsByType`
run with a bound on the number of nested activations of `_GetIdsByType`: every activation
takes one from the bound, and `none` is returned when nothing is left. -/
def _GetIdsByType_upTo (cfg : Config) : Nat → CType → Option (Except Failure (List Nat))
  | 0, _ => none
  | bound + 1, T =>
    if is_supported_type T then
      match GetFieldsCount cfg T with
      | .error e => some (.error e)
      | .ok N =>
        _GetIdsRaw_Impl_upTo (_Cast_Impl_upTo (_GetIdsByType_upTo cfg bound) cfg) cfg T
          (List.range N)
    else some (.error .UnsupportedType)

/-- The pointer types among the registered fundamental types. -/
def Prim.isPointer : Prim → Bool
  | .void_ptr => true
  | .const_void_ptr => true
  | .volatile_void_ptr => true
  | .const_volatile_void_ptr => true
  | _ => false

/-! ## The types of `test.cpp`, on a platform with the sizes of MSVC x64 -/

namespace test

/-- The `sizeof` of the fundamental types on MSVC x64. -/
def msvcSizeof : Prim → Nat
  | .unsigned_char | .signed_char | .char | .bool => 1
  | .unsigned_short | .short | .wchar_t | .char16_t => 2
  | .unsigned_int | .int | .unsigned_long | .long | .char32_t | .float => 4
  | _ => 8

/-- The platform of the examples. -/
def msvc : Config := ⟨msvcSizeof, 100⟩

/-- The struct `TwoFields { char field1; int field2; }`. -/
def TwoFields : CType := .aggr 8 [.prim .char, .prim .int]

/-- The struct `ThreeFieldsWithEnum { char; TestEnum1 : unsigned long long; TestEnum2; }`. -/
def ThreeFieldsWithEnum : CType :=
  .aggr 24 [.prim .char, .enum .unsigned_long_long, .enum .int]

/-- The struct `Nested { int field1; char field2; }`. -/
def Nested : CType := .aggr 8 [.prim .int, .prim .char]

/-- The struct `ThreeFieldsWithNestedStruct { double; Nested; char; }`. -/
def ThreeFieldsWithNestedStruct : CType := .aggr 24 [.prim .double, Nested, .prim .char]

/-- The struct `NestedWithNested { char field1; Nested field2; }`. -/
def NestedWithNested : CType := .aggr 12 [.prim .char, Nested]

/-- The struct `TwoFieldsTwoLevelsOfNestedStructs { long long; NestedWithNested; }`. -/
def TwoFieldsTwoLevelsOfNestedStructs : CType := .aggr 24 [.prim .long_long, NestedWithNested]

/-- The object `ThreeFieldsWithEnum original{ 'a', first1, second2 }` of the test
`Serialization.BinaryContainsEnum`, leaf by leaf as bytes. -/
def originalWithEnum : Value ByteImage :=
  .aggr [.leaf [97], .leaf [0, 0, 0, 0, 0, 0, 0, 0], .leaf [1, 0, 0, 0]]

/-- The object `ThreeFieldsWithEnum loaded{ 'b', second1, first2 }` of the same test. -/
def loadedWithEnum : Value ByteImage :=
  .aggr [.leaf [98], .leaf [1, 0, 0, 0, 0, 0, 0, 0], .leaf [0, 0, 0, 0]]

/-- An object of the struct `ThreeFieldsWithNestedStruct`, `{ 3.14, { 42, 'a' }, 'b' }`, leaf
by leaf as bytes. -/
def threeFieldsNested : Value ByteImage :=
  .aggr [.leaf [31, 133, 235, 81, 184, 30, 9, 64], .aggr [.leaf [42, 0, 0, 0], .leaf [97]],
    .leaf [98]]

/-- The `double` nearest to `3.14`: `7070651414971679 / 2 ^ 51`. -/
def double_3_14 : TextLeaf := .floating 7070651414971679 51

/-- The `double` nearest to `2.71`: `3051188747543511 / 2 ^ 50`. -/
def double_2_71 : TextLeaf := .floating 3051188747543511 50

/-- The object `NotPod original{ 'a', "Serialized\n string", 3.14 }` of the test
`Serialization.StringStreamNotPod`. -/
def originalNotPod : Value TextLeaf :=
  .aggr [.leaf (.character 'a'), .leaf (.text "Serialized\n string".toList),
    .leaf double_3_14]

/-- The object `NotPod loaded{ 'b', "Another string", 2.71 }` of the same test. -/
def loadedNotPod : Value TextLeaf :=
  .aggr [.leaf (.character 'b'), .leaf (.text "Another string".toList), .leaf double_2_71]

/-- The object `ThreeFieldsWithNestedStruct original{ 3.14, { 42, 'a' }, 'b' }` of the test
`Serialization.NestedStruct`. -/
def originalNestedStruct : Value TextLeaf :=
  .aggr [.leaf double_3_14, .aggr [.leaf (.number 42), .leaf (.character 'a')],
    .leaf (.character 'b')]

/-- The object `ThreeFieldsWithNestedStruct loaded{ 2.71, { -5, 'c' }, 'd' }` of the same
test. -/
def loadedNestedStruct : Value TextLeaf :=
  .aggr [.leaf double_2_71, .aggr [.leaf (.number (-5)), .leaf (.character 'c')],
    .leaf (.character 'd')]

/-- The struct `NotPod { char field1; std::string field2; double field3; }`; the size of
`std::string` is 32. -/
def NotPod : CType := .aggr 48 [.prim .char, .other 32, .prim .double]

/-- A struct `{ int n; void* p; }`, of size 16. -/
def WithVoidPointer : CType := .aggr 16 [.prim .int, .prim .void_ptr]

/-- A struct `{ int n; int* p; }`, of size 16: `int*` is not a registered type. -/
def WithIntPointer : CType := .aggr 16 [.prim .int, .other 8]

end test

/-! # Lemmas -/

/-! ### Registry facts -/

theorem Prim.mem_all (k : Prim) : k ∈ Prim.all := by
  cases k <;> simp [Prim.all]

theorem _GetIdByType_pos (k : Prim) : 1 ≤ _GetIdByType k := by
  cases k <;> simp [_GetIdByType]

theorem _GetIdByType_le (k : Prim) : _GetIdByType k ≤ 23 := by
  cases k <;> simp [_GetIdByType]

theorem _GetIdByType_ne_zero (k : Prim) : _GetIdByType k ≠ 0 := by
  have := _GetIdByType_pos k
  omega

theorem _GetTypeById_GetIdByType (k : Prim) : _GetTypeById (_GetIdByType k) = some k := by
  cases k <;> rfl

theorem _GetTypeById_some_of_range (i : Nat) (h1 : 1 ≤ i) (h23 : i ≤ 23) :
    ∃ k, _GetTypeById i = some k ∧ _GetIdByType k = i := by
  interval_cases i <;> exact ⟨_, rfl, rfl⟩

theorem _GetIdByType_inj {k1 k2 : Prim} (h : _GetIdByType k1 = _GetIdByType k2) : k1 = k2 := by
  have e1 := _GetTypeById_GetIdByType k1
  have e2 := _GetTypeById_GetIdByType k2
  rw [h, e2] at e1
  exact (Option.some.inj e1).symm


/-! ### The `Except` monad, reads and writes -/

theorem ok_bind {ε α β : Type} (a : α) (f : α → Except ε β) :
    (Except.ok a >>= f) = f a := rfl

theorem error_bind {ε α β : Type} (e : ε) (f : α → Except ε β) :
    ((Except.error e : Except ε α) >>= f) = Except.error e := rfl

theorem pure_eq_ok {ε α : Type} (a : α) : (pure a : Except ε α) = Except.ok a := rfl

theorem map_ok {ε α β : Type} (f : α → β) (a : α) :
    (f <$> (Except.ok a : Except ε α)) = Except.ok (f a) := rfl

theorem readAt_of_getElem? {data : List Nat} {i v : Nat} (h : data[i]? = some v) :
    readAt data i = .ok v := by
  simp [readAt, h]

theorem writeAt_of_lt {data : List Nat} {i : Nat} (v : Nat) (h : i < data.length) :
    writeAt data i v = .ok (data.set i v) := by
  simp [writeAt, h]

/-! ### The field counter -/

theorem searchFieldsCount_eq (accepts : Nat → Bool) (c : Nat)
    (hacc : ∀ n, accepts n = decide (n ≤ c)) :
    ∀ fuel lo hi, lo ≤ c → c < hi → hi - lo ≤ fuel + 1 →
      searchFieldsCount accepts fuel lo hi = c := by
  intro fuel
  induction fuel with
  | zero =>
    intro lo hi h1 h2 h3
    simp only [searchFieldsCount]
    omega
  | succ fuel ih =>
    intro lo hi h1 h2 h3
    simp only [searchFieldsCount]
    split
    · omega
    · rename_i hgap
      by_cases hmid : (lo + hi) / 2 ≤ c
      · rw [if_pos (by rw [hacc]; exact decide_eq_true hmid)]
        exact ih _ _ hmid h2 (by omega)
      · rw [if_neg (by rw [hacc]; simpa using hmid)]
        exact ih _ _ h1 (by omega) (by omega)

theorem GetFieldsCount_aggr (cfg : Config) (size : Nat) (fields : List CType)
    (h : fields.length ≤ cfg.MAX_FIELDS) :
    GetFieldsCount cfg (.aggr size fields) = .ok fields.length := by
  have hrej : acceptsInit (.aggr size fields) (cfg.MAX_FIELDS + 1) = false := by
    simp only [acceptsInit, decide_eq_false_iff_not]
    omega
  simp only [GetFieldsCount, is_supported_type, hrej, Bool.not_true, Bool.false_eq_true,
    if_false]
  congr 1
  exact searchFieldsCount_eq _ fields.length (fun n => rfl) _ _ _ (Nat.zero_le _)
    (by omega) (by omega)


/-! ### The offsets written by `temporary1` -/

theorem sumSizes_nil (cfg : Config) : sumSizes cfg [] = 0 := rfl

theorem sumSizes_cons (cfg : Config) (F : CType) (Fs : List CType) :
    sumSizes cfg (F :: Fs) = sizeof cfg F + sumSizes cfg Fs := by
  simp [sumSizes]

theorem sumSizes_append (cfg : Config) (Fs Gs : List CType) :
    sumSizes cfg (Fs ++ Gs) = sumSizes cfg Fs + sumSizes cfg Gs := by
  simp [sumSizes]

theorem drop_cons_split {α : Type} {l : List α} {k : Nat} {a : α} {rest : List α}
    (h : l.drop k = a :: rest) :
    k < l.length ∧ l[k]? = some a ∧ l.drop (k + 1) = rest ∧ l.take (k + 1) = l.take k ++ [a] := by
  have hk : k < l.length := by
    by_contra hc
    rw [List.drop_eq_nil_of_le (by omega)] at h
    cases h
  have h2 := List.drop_eq_getElem_cons hk
  rw [h] at h2
  injection h2 with ha hr
  refine ⟨hk, ?_, hr.symm, ?_⟩
  · rw [List.getElem?_eq_getElem hk, ha]
  · rw [List.take_succ, List.getElem?_eq_getElem hk, ha]
    rfl

theorem _OffsetsUniversalInit_zero (cfg : Config) (F : CType) (offs szs : List Nat)
    (ho : 0 < offs.length) (hs : 0 < szs.length) :
    _OffsetsUniversalInit cfg 0 F offs szs = .ok (offs.set 0 0, szs.set 0 (sizeof cfg F)) := by
  simp [_OffsetsUniversalInit, writeAt, ho, hs, pure_eq_ok, ok_bind]

theorem _OffsetsUniversalInit_succ (cfg : Config) (k : Nat) (F : CType) (offs szs : List Nat)
    (a b : Nat) (ha : offs[k]? = some a) (hb : szs[k]? = some b)
    (ho : k + 1 < offs.length) (hs : k + 1 < szs.length) :
    _OffsetsUniversalInit cfg (k + 1) F offs szs
      = .ok (offs.set (k + 1) (a + b), szs.set (k + 1) (sizeof cfg F)) := by
  simp [_OffsetsUniversalInit, writeAt, readAt, ha, hb, ho, hs, pure_eq_ok, ok_bind]

theorem temporary1_spec (cfg : Config) (all : List CType) (N : Nat) (hN : all.length ≤ N) :
    ∀ (Fs : List CType) (k : Nat) (offs szs : List Nat),
      all.drop k = Fs → offs.length = N → szs.length = N →
      (∀ j, j < k → offs[j]? = some (sumSizes cfg (all.take j))) →
      (∀ j, j < k → szs[j]? = (all.map (sizeof cfg))[j]?) →
      ∃ offs2 szs2, temporary1 cfg Fs (List.range' k Fs.length) offs szs = .ok (offs2, szs2) ∧
        offs2.length = N ∧
        ∀ j, j < all.length → offs2[j]? = some (sumSizes cfg (all.take j)) := by
  intro Fs
  induction Fs with
  | nil =>
    intro k offs szs hdrop ho hs hoffs hszs
    refine ⟨offs, szs, by simp [temporary1], ho, ?_⟩
    intro j hj
    have : all.length ≤ k := by
      have := congrArg List.length hdrop
      simp at this
      omega
    exact hoffs j (by omega)
  | cons F Fs ih =>
    intro k offs szs hdrop ho hs hoffs hszs
    obtain ⟨hk, hget, hdrop2, htake⟩ := drop_cons_split hdrop
    have hstep : ∃ st, _OffsetsUniversalInit cfg k F offs szs = .ok st ∧
        st.1 = offs.set k (sumSizes cfg (all.take k)) ∧ st.2 = szs.set k (sizeof cfg F) := by
      cases k with
      | zero =>
        refine ⟨_, _OffsetsUniversalInit_zero cfg F offs szs (by omega) (by omega), ?_, rfl⟩
        simp [sumSizes]
      | succ k =>
        have hk2 : k < all.length := by omega
        have h1 := hoffs k (by omega)
        have h2 := hszs k (by omega)
        rw [List.getElem?_map, List.getElem?_eq_getElem hk2] at h2
        refine ⟨_, _OffsetsUniversalInit_succ cfg k F offs szs _ _ h1 h2 (by omega) (by omega),
          ?_, rfl⟩
        have h3 : all.take (k + 1) = all.take k ++ [all[k]] := by
          rw [List.take_succ, List.getElem?_eq_getElem hk2]
          rfl
        rw [h3, sumSizes_append, sumSizes_cons, sumSizes_nil]
        simp
    obtain ⟨st, hst, hst1, hst2⟩ := hstep
    have hrange : List.range' k (F :: Fs).length = k :: List.range' (k + 1) Fs.length := by
      simp [List.range'_succ]
    rw [hrange]
    simp only [temporary1, hst, ok_bind]
    apply ih (k + 1) st.1 st.2 hdrop2
    · rw [hst1]; simp [ho]
    · rw [hst2]; simp [hs]
    · intro j hj
      rw [hst1]
      by_cases hjk : j = k
      · subst hjk
        rw [List.getElem?_set_self (by omega)]
      · rw [List.getElem?_set_ne (by omega)]
        exact hoffs j (by omega)
    · intro j hj
      rw [hst2]
      by_cases hjk : j = k
      · subst hjk
        rw [List.getElem?_set_self (by omega), List.getElem?_map, hget]
        rfl
      · rw [List.getElem?_set_ne (by omega)]
        exact hszs j (by omega)


/-! ### The two overloads of `Assign` -/

theorem set_append_cons {α : Type} (a : List α) (x v : α) (b : List α) (k : Nat)
    (hk : k = a.length) : (a ++ x :: b).set k v = a ++ v :: b := by
  subst hk
  simp

theorem set_append_zeros (pre : List Nat) (m v : Nat) (hm : 1 ≤ m) :
    (pre ++ List.replicate m 0).set pre.length v = pre ++ v :: List.replicate (m - 1) 0 := by
  obtain ⟨m, rfl⟩ : ∃ k, m = k + 1 := ⟨m - 1, by omega⟩
  simp [List.replicate_succ]

theorem Assign_spec (pre : List Nat) (m id : Nat) (hm : 1 ≤ m) :
    Assign (pre ++ List.replicate m 0) pre.length id
      = .ok (pre ++ id :: List.replicate (m - 1) 0) := by
  have hlt : pre.length < (pre ++ List.replicate m 0).length := by
    simp; omega
  simp only [Assign, Nat.add_zero, writeAt_of_lt _ hlt, set_append_zeros pre m id hm]

theorem AssignArray_steps (raw ids : List Nat) (p : Nat) :
    ∀ n, n ≤ ids.length → p + n ≤ raw.length →
      (List.range n).foldlM
        (fun raw i => do
          let v ← readAt ids i
          writeAt raw (p + i) v) raw
        = Except.ok (raw.take p ++ ids.take n ++ raw.drop (p + n)) := by
  intro n
  induction n with
  | zero =>
    intro _ _
    simp [pure_eq_ok]
  | succ n ih =>
    intro h1 h2
    rw [List.range_succ, List.foldlM_append, ih (by omega) (by omega), ok_bind]
    have hr : readAt ids n = .ok ids[n] :=
      readAt_of_getElem? (List.getElem?_eq_getElem (by omega))
    have hlen : (raw.take p ++ ids.take n).length = p + n := by
      simp; omega
    have hd : raw.drop (p + n) = raw[p + n] :: raw.drop (p + n + 1) :=
      List.drop_eq_getElem_cons (by omega)
    have ht : ids.take (n + 1) = ids.take n ++ [ids[n]] := by
      rw [List.take_succ, List.getElem?_eq_getElem (by omega)]
      rfl
    simp only [List.foldlM_cons, List.foldlM_nil, hr, ok_bind]
    rw [writeAt_of_lt _ (by simp; omega), ok_bind, pure_eq_ok]
    congr 1
    rw [hd, ht, set_append_cons _ _ _ _ _ hlen.symm]
    simp only [List.append_assoc, List.singleton_append, Nat.add_assoc]

theorem AssignArray_spec (pre ids : List Nat) (m : Nat) (h : ids.length ≤ m) :
    AssignArray (pre ++ List.replicate m 0) pre.length ids.length ids
      = .ok (pre ++ ids ++ List.replicate (m - ids.length) 0) := by
  unfold AssignArray
  rw [AssignArray_steps _ ids pre.length ids.length (Nat.le_refl _) (by simp; omega)]
  simp


/-! ### The raw array of a supported type -/

theorem rawImage_ofFields_length (cfg : Config) :
    ∀ Fs : List CType, (∀ F ∈ Fs, (rawImage cfg F).length = sizeof cfg F) →
      (rawImage.ofFields cfg Fs).length = sumSizes cfg Fs := by
  intro Fs
  induction Fs with
  | nil => intro _; simp [rawImage.ofFields, sumSizes]
  | cons F Fs ih =>
    intro h
    simp only [rawImage.ofFields, List.length_append, sumSizes_cons]
    rw [h F (List.mem_cons_self _ _), ih (fun G hG => h G (List.mem_cons_of_mem _ hG))]

theorem rawImage_length (cfg : Config) (F : CType) (hF : Supported cfg F) :
    (rawImage cfg F).length = sizeof cfg F := by
  induction hF with
  | prim p hp =>
    simp only [rawImage, sizeof, List.length_cons, List.length_replicate]
    omega
  | enum u hu =>
    simp only [rawImage, sizeof, List.length_cons, List.length_replicate]
    omega
  | aggr size fields _ _ _ hsum ih =>
    simp only [rawImage, sizeof, List.length_append, List.length_replicate]
    rw [rawImage_ofFields_length cfg fields ih]
    omega

theorem _Cast_Impl_prim (cfg : Config) (p : Prim) (idsRaw : List Nat) (pTypeIds : Nat) :
    _Cast_Impl cfg (.prim p) idsRaw pTypeIds = Assign idsRaw pTypeIds (_GetIdByType p) := by
  rw [_Cast_Impl]
  simp [is_registered_or_aliased, is_enum, _EnumDispatch]

theorem _Cast_Impl_enum (cfg : Config) (u : Prim) (idsRaw : List Nat) (pTypeIds : Nat) :
    _Cast_Impl cfg (.enum u) idsRaw pTypeIds = Assign idsRaw pTypeIds (_GetIdByType u) := by
  rw [_Cast_Impl]
  simp [is_registered_or_aliased, is_enum, _EnumDispatch]

theorem _Cast_Impl_aggr (cfg : Config) (size : Nat) (fields : List CType) (idsRaw : List Nat)
    (pTypeIds : Nat) :
    _Cast_Impl cfg (.aggr size fields) idsRaw pTypeIds
      = (_GetIdsByType cfg (.aggr size fields) >>= fun ids =>
          AssignArray idsRaw pTypeIds size ids) := by
  rw [_Cast_Impl]
  simp [is_registered_or_aliased, sizeof]

theorem temporary2_spec (cfg : Config) :
    ∀ Fs : List CType,
      (∀ F ∈ Fs, (rawImage cfg F).length = sizeof cfg F ∧
        ∀ (pre : List Nat) (m : Nat), sizeof cfg F ≤ m →
          _Cast_Impl cfg F (pre ++ List.replicate m 0) pre.length
            = .ok (pre ++ rawImage cfg F ++ List.replicate (m - sizeof cfg F) 0)) →
      ∀ (k : Nat) (pre : List Nat) (m : Nat) (offs : List Nat),
        (∀ j, j < Fs.length → offs[k + j]? = some (pre.length + sumSizes cfg (Fs.take j))) →
        sumSizes cfg Fs ≤ m →
        temporary2 cfg Fs (List.range' k Fs.length) offs (pre ++ List.replicate m 0)
          = .ok (pre ++ rawImage.ofFields cfg Fs ++ List.replicate (m - sumSizes cfg Fs) 0) := by
  intro Fs
  induction Fs with
  | nil =>
    intro _ k pre m offs _ _
    simp only [List.length_nil, List.range'_zero]
    rw [temporary2]
    simp [rawImage.ofFields, sumSizes]
  | cons F Fs ih =>
    intro hall k pre m offs hoffs hsum
    obtain ⟨hlenF, hcast⟩ := hall F (List.mem_cons_self _ _)
    rw [sumSizes_cons] at hsum
    have hrange : List.range' k (F :: Fs).length = k :: List.range' (k + 1) Fs.length := by
      simp [List.range'_succ]
    have hread : readAt offs k = .ok pre.length := by
      have := hoffs 0 (by simp)
      simp only [Nat.add_zero, List.take_zero, sumSizes_nil] at this
      exact readAt_of_getElem? this
    rw [hrange, temporary2]
    simp only [hread, ok_bind, hcast pre m (by omega)]
    have hih := ih (fun G hG => hall G (List.mem_cons_of_mem _ hG)) (k + 1)
      (pre ++ rawImage cfg F) (m - sizeof cfg F) offs
      (by
        intro j hj
        have := hoffs (j + 1) (by simp; omega)
        rw [List.take_succ_cons, sumSizes_cons] at this
        rw [List.length_append, hlenF, Nat.add_assoc, Nat.add_comm 1 j, this]
        congr 1
        omega)
      (by omega)
    rw [hih]
    have hsub : m - sizeof cfg F - sumSizes cfg Fs = m - (sizeof cfg F + sumSizes cfg Fs) := by
      omega
    simp only [rawImage.ofFields, sumSizes_cons, List.append_assoc, hsub]


theorem _GetIdsRaw_Impl_spec (cfg : Config) (size : Nat) (fields : List CType)
    (hall : ∀ F ∈ fields, (rawImage cfg F).length = sizeof cfg F ∧
        ∀ (pre : List Nat) (m : Nat), sizeof cfg F ≤ m →
          _Cast_Impl cfg F (pre ++ List.replicate m 0) pre.length
            = .ok (pre ++ rawImage cfg F ++ List.replicate (m - sizeof cfg F) 0))
    (hsum : sumSizes cfg fields ≤ size) :
    _GetIdsRaw_Impl cfg (.aggr size fields) (List.range fields.length)
      = .ok (rawImage cfg (.aggr size fields)) := by
  rw [_GetIdsRaw_Impl]
  obtain ⟨offs2, szs2, h1, _, hoffs⟩ :=
    temporary1_spec cfg fields fields.length (Nat.le_refl _) fields 0
      (SizeTArray.zeros fields.length) (SizeTArray.zeros fields.length) (by simp)
      (by simp [SizeTArray.zeros]) (by simp [SizeTArray.zeros])
      (fun j hj => absurd hj (Nat.not_lt_zero j)) (fun j hj => absurd hj (Nat.not_lt_zero j))
  rw [← List.range_eq_range'] at h1
  simp only [List.length_range, h1, ok_bind]
  have h2 := temporary2_spec cfg fields hall 0 [] size offs2
    (by
      intro j hj
      simpa using hoffs j hj)
    hsum
  rw [← List.range_eq_range'] at h2
  simpa [SizeTArray.zeros, rawImage] using h2

theorem flatten_main (cfg : Config) (F : CType) (hF : Supported cfg F) :
    (∀ (pre : List Nat) (m : Nat), sizeof cfg F ≤ m →
        _Cast_Impl cfg F (pre ++ List.replicate m 0) pre.length
          = .ok (pre ++ rawImage cfg F ++ List.replicate (m - sizeof cfg F) 0)) ∧
    (is_supported_type F = true → _GetIdsByType cfg F = .ok (rawImage cfg F)) := by
  induction hF with
  | prim p h1 =>
    refine ⟨?_, by simp [is_supported_type]⟩
    intro pre m hm
    simp only [sizeof] at hm
    rw [_Cast_Impl_prim, Assign_spec pre m _ (by omega)]
    have hsplit : m - 1 = (cfg.sizeofPrim p - 1) + (m - cfg.sizeofPrim p) := by omega
    simp only [rawImage, sizeof, List.append_assoc, List.cons_append,
      List.append_replicate_replicate, ← hsplit]
  | enum u h1 =>
    refine ⟨?_, by simp [is_supported_type]⟩
    intro pre m hm
    simp only [sizeof] at hm
    rw [_Cast_Impl_enum, Assign_spec pre m _ (by omega)]
    have hsplit : m - 1 = (cfg.sizeofPrim u - 1) + (m - cfg.sizeofPrim u) := by omega
    simp only [rawImage, sizeof, List.append_assoc, List.cons_append,
      List.append_replicate_replicate, ← hsplit]
  | aggr size fields hfields hne hmax hsum ih =>
    have hall : ∀ F ∈ fields, (rawImage cfg F).length = sizeof cfg F ∧
        ∀ (pre : List Nat) (m : Nat), sizeof cfg F ≤ m →
          _Cast_Impl cfg F (pre ++ List.replicate m 0) pre.length
            = .ok (pre ++ rawImage cfg F ++ List.replicate (m - sizeof cfg F) 0) :=
      fun G hG => ⟨rawImage_length cfg G (hfields G hG), (ih G hG).1⟩
    have hby : _GetIdsByType cfg (.aggr size fields) = .ok (rawImage cfg (.aggr size fields)) := by
      rw [_GetIdsByType]
      simp only [is_supported_type, if_true, GetFieldsCount_aggr cfg size fields hmax, ok_bind]
      exact _GetIdsRaw_Impl_spec cfg size fields hall hsum
    refine ⟨?_, fun _ => hby⟩
    intro pre m hm
    have hlen := rawImage_length cfg _ (Supported.aggr size fields hfields hne hmax hsum)
    simp only [sizeof] at hm hlen
    rw [_Cast_Impl_aggr, hby, ok_bind]
    have := AssignArray_spec pre (rawImage cfg (.aggr size fields)) m (by omega)
    rw [hlen] at this
    simpa [sizeof] using this


/-! ### Compaction -/

theorem CountNonZeros_foldl (data : List Nat) :
    ∀ acc : Nat, data.foldl (fun n x => if x ≠ 0 then n + 1 else n) acc
      = acc + (data.filter isNonZero).length := by
  induction data with
  | nil => intro acc; simp
  | cons x xs ih =>
    intro acc
    simp only [List.foldl_cons, ih]
    by_cases hx : x = 0
    · simp [hx, isNonZero]
    · simp [hx, List.filter_cons, isNonZero]
      omega

theorem CountNonZeros_eq (data : List Nat) :
    CountNonZeros data = (data.filter isNonZero).length := by
  unfold CountNonZeros
  rw [CountNonZeros_foldl, Nat.zero_add]

theorem filter_take_length_le (src : List Nat) (n : Nat) :
    ((src.take n).filter isNonZero).length
      ≤ (src.filter isNonZero).length :=
  ((List.take_sublist n src).filter _).length_le

theorem ArrayToNonZeros_steps (src : List Nat) (total : Nat)
    (htotal : total = (src.filter isNonZero).length) :
    ∀ n, n ≤ src.length →
      (List.range n).foldlM
        (fun (st : List Nat × Nat) i => do
          let v ← readAt src i
          if v ≠ 0 then do
            let dst ← writeAt st.1 st.2 v
            pure (dst, st.2 + 1)
          else pure st)
        (List.replicate total 0, 0)
      = Except.ok
          ((src.take n).filter isNonZero ++
              List.replicate (total - ((src.take n).filter isNonZero).length) 0,
            ((src.take n).filter isNonZero).length) := by
  intro n
  induction n with
  | zero => intro _; simp [pure_eq_ok]
  | succ n ih =>
    intro hn
    rw [List.range_succ, List.foldlM_append, ih (by omega), ok_bind]
    have hr : readAt src n = .ok src[n] :=
      readAt_of_getElem? (List.getElem?_eq_getElem (by omega))
    have ht : src.take (n + 1) = src.take n ++ [src[n]] := by
      rw [List.take_succ, List.getElem?_eq_getElem (by omega)]
      rfl
    have hle := filter_take_length_le src (n + 1)
    rw [ht] at hle ⊢
    simp only [List.foldlM_cons, List.foldlM_nil, hr, ok_bind]
    by_cases hv : src[n] = 0
    · simp [hv, pure_eq_ok, ok_bind, isNonZero]
    · have hnz : isNonZero src[n] = true := by simp [isNonZero, hv]
      simp only [List.filter_append, List.filter_cons, List.filter_nil, hv, hnz, ne_eq,
        not_false_eq_true, if_true, List.length_append, List.length_cons,
        List.length_nil] at hle ⊢
      rw [writeAt_of_lt _ (by simp; omega), ok_bind, pure_eq_ok, ok_bind, pure_eq_ok]
      rw [set_append_zeros _ _ _ (by omega)]
      simp only [List.append_assoc, List.singleton_append, Nat.sub_sub, Nat.zero_add]

theorem ArrayToNonZeros_Run_spec (src : List Nat) :
    ArrayToNonZeros.Run src.length src (SizeTArray.zeros (CountNonZeros src))
      = .ok (src.filter isNonZero) := by
  unfold ArrayToNonZeros.Run SizeTArray.zeros
  rw [ArrayToNonZeros_steps src _ (CountNonZeros_eq src) src.length (Nat.le_refl _), map_ok]
  simp [CountNonZeros_eq]

/-! ### The non-zero entries of the raw image -/

theorem filter_replicate_zero (n : Nat) :
    (List.replicate n 0).filter isNonZero = [] := by
  induction n with
  | zero => rfl
  | succ n ih => simp [List.replicate_succ, List.filter_cons, isNonZero]

theorem isNonZero_id (k : Prim) : isNonZero (_GetIdByType k) = true := by
  simp [isNonZero, _GetIdByType_ne_zero]

mutual

theorem filter_rawImage (cfg : Config) :
    ∀ T : CType, (rawImage cfg T).filter isNonZero = LeafIdSequence T
  | .prim p => by
    simp [rawImage, LeafIdSequence, List.filter_cons, isNonZero_id, filter_replicate_zero]
  | .enum u => by
    simp [rawImage, LeafIdSequence, List.filter_cons, isNonZero_id, filter_replicate_zero]
  | .aggr size fields => by
    simp only [rawImage, LeafIdSequence, List.filter_append, filter_replicate_zero,
      List.append_nil]
    exact filter_rawImage_ofFields cfg fields
  | .other size => by
    simp [rawImage, LeafIdSequence, filter_replicate_zero]

theorem filter_rawImage_ofFields (cfg : Config) :
    ∀ Fs : List CType,
      (rawImage.ofFields cfg Fs).filter isNonZero = LeafIdSequence.ofFields Fs
  | [] => by simp [rawImage.ofFields, LeafIdSequence.ofFields]
  | F :: Fs => by
    simp only [rawImage.ofFields, LeafIdSequence.ofFields, List.filter_append]
    rw [filter_rawImage cfg F, filter_rawImage_ofFields cfg Fs]

end

mutual

theorem LeafIdSequence_length : ∀ T : CType, (LeafIdSequence T).length = leafCount T
  | .prim _ => by simp [LeafIdSequence, leafCount]
  | .enum _ => by simp [LeafIdSequence, leafCount]
  | .aggr _ fields => by
    simp only [LeafIdSequence, leafCount]
    exact LeafIdSequence_ofFields_length fields
  | .other _ => by simp [LeafIdSequence, leafCount]

theorem LeafIdSequence_ofFields_length :
    ∀ Fs : List CType, (LeafIdSequence.ofFields Fs).length = leafCount.ofFields Fs
  | [] => by simp [LeafIdSequence.ofFields, leafCount.ofFields]
  | F :: Fs => by
    simp only [LeafIdSequence.ofFields, leafCount.ofFields, List.length_append]
    rw [LeafIdSequence_length F, LeafIdSequence_ofFields_length Fs]

end

/-! ### `GetTypeIds` on a supported aggregate -/

theorem _GetIdsRaw_Impl_supported (cfg : Config) (size : Nat)
    (fields : List CType) (hT : Supported cfg (.aggr size fields)) :
    _GetIdsRaw_Impl cfg (.aggr size fields) (List.range fields.length)
      = .ok (rawImage cfg (.aggr size fields)) := by
  cases hT with
  | aggr _ _ hfields hne hmax hsum =>
    exact _GetIdsRaw_Impl_spec cfg size fields
      (fun G hG => ⟨rawImage_length cfg G (hfields G hG),
        (flatten_main cfg G (hfields G hG)).1⟩) hsum

theorem GetTypeIds_supported (cfg : Config) (size : Nat)
    (fields : List CType) (hT : Supported cfg (.aggr size fields)) :
    GetTypeIds cfg (.aggr size fields) = .ok (LeafIdSequence (.aggr size fields)) := by
  have hmax : fields.length ≤ cfg.MAX_FIELDS := by
    cases hT with
    | aggr _ _ _ _ hmax _ => exact hmax
  have hlen := rawImage_length cfg _ hT
  simp only [sizeof] at hlen
  simp only [GetTypeIds, is_supported_type, if_true, GetFieldsCount_aggr cfg size fields hmax,
    ok_bind, _GetTypeIds_Impl, _GetIdsRaw_Impl_supported cfg size fields hT, sizeof]
  have := ArrayToNonZeros_Run_spec (rawImage cfg (.aggr size fields))
  rw [hlen] at this
  rw [this, filter_rawImage]


/-! ### The reference flattening -/

theorem LeafIdSequence_ofFields_append (Fs Gs : List CType) :
    LeafIdSequence.ofFields (Fs ++ Gs) = LeafIdSequence.ofFields Fs ++ LeafIdSequence.ofFields Gs := by
  induction Fs with
  | nil => simp [LeafIdSequence.ofFields]
  | cons F Fs ih => simp [LeafIdSequence.ofFields, ih]

theorem LeafIdSequence_ofFields_eq_flatten (Fs : List CType) :
    LeafIdSequence.ofFields Fs = (Fs.map LeafIdSequence).flatten := by
  induction Fs with
  | nil => simp [LeafIdSequence.ofFields]
  | cons F Fs ih => simp [LeafIdSequence.ofFields, ih]

theorem LeafIdSequence_ofFields_prims (ps : List Prim) :
    LeafIdSequence.ofFields (ps.map CType.prim) = ps.map _GetIdByType := by
  induction ps with
  | nil => simp [LeafIdSequence.ofFields]
  | cons p ps ih => simp [LeafIdSequence.ofFields, LeafIdSequence, ih]

mutual

theorem LeafIdSequence_eq_map_leafKinds :
    ∀ T : CType, LeafIdSequence T = (leafKinds T).map _GetIdByType
  | .prim _ => by simp [LeafIdSequence, leafKinds]
  | .enum _ => by simp [LeafIdSequence, leafKinds]
  | .aggr _ fields => by
    simp only [LeafIdSequence, leafKinds]
    exact LeafIdSequence_ofFields_eq_map_leafKinds fields
  | .other _ => by simp [LeafIdSequence, leafKinds]

theorem LeafIdSequence_ofFields_eq_map_leafKinds :
    ∀ Fs : List CType, LeafIdSequence.ofFields Fs = (leafKinds.ofFields Fs).map _GetIdByType
  | [] => by simp [LeafIdSequence.ofFields, leafKinds.ofFields]
  | F :: Fs => by
    simp only [LeafIdSequence.ofFields, leafKinds.ofFields, List.map_append]
    rw [LeafIdSequence_eq_map_leafKinds F, LeafIdSequence_ofFields_eq_map_leafKinds Fs]

end

theorem Supported.of_mem {cfg : Config} {size : Nat} {fields : List CType}
    (hT : Supported cfg (.aggr size fields)) {F : CType} (hF : F ∈ fields) : Supported cfg F := by
  cases hT with
  | aggr _ _ hfields _ _ _ => exact hfields F hF

theorem GetTypeIds_supported_field (cfg : Config) (F : CType) (hF : Supported cfg F)
    (hagg : is_supported_type F = true) : GetTypeIds cfg F = .ok (LeafIdSequence F) := by
  cases F with
  | aggr size fields => exact GetTypeIds_supported cfg size fields hF
  | prim p => simp [is_supported_type] at hagg
  | enum u => simp [is_supported_type] at hagg
  | other n => simp [is_supported_type] at hagg

/-! ### The types of `test.cpp` are supported -/

theorem test.msvcSizeof_pos (p : Prim) : 1 ≤ test.msvcSizeof p := by
  cases p <;> decide

theorem test.supported_prim (p : Prim) : Supported test.msvc (.prim p) :=
  Supported.prim p (test.msvcSizeof_pos p)

theorem test.supported_enum (u : Prim) : Supported test.msvc (.enum u) :=
  Supported.enum u (test.msvcSizeof_pos u)

theorem test.supported_TwoFields : Supported test.msvc test.TwoFields := by
  refine Supported.aggr _ _ ?_ (by simp) (by decide) (by decide)
  intro F hF
  simp only [List.mem_cons, List.mem_singleton, List.not_mem_nil, or_false] at hF
  rcases hF with rfl | rfl <;> exact test.supported_prim _

theorem test.supported_ThreeFieldsWithEnum : Supported test.msvc test.ThreeFieldsWithEnum := by
  refine Supported.aggr _ _ ?_ (by simp) (by decide) (by decide)
  intro F hF
  simp only [List.mem_cons, List.mem_singleton, List.not_mem_nil, or_false] at hF
  rcases hF with rfl | rfl | rfl
  · exact test.supported_prim _
  · exact test.supported_enum _
  · exact test.supported_enum _

theorem test.supported_Nested : Supported test.msvc test.Nested := by
  refine Supported.aggr _ _ ?_ (by simp) (by decide) (by decide)
  intro F hF
  simp only [List.mem_cons, List.mem_singleton, List.not_mem_nil, or_false] at hF
  rcases hF with rfl | rfl <;> exact test.supported_prim _

theorem test.supported_NestedWithNested : Supported test.msvc test.NestedWithNested := by
  refine Supported.aggr _ _ ?_ (by simp) (by decide) (by decide)
  intro F hF
  simp only [List.mem_cons, List.mem_singleton, List.not_mem_nil, or_false] at hF
  rcases hF with rfl | rfl
  · exact test.supported_prim _
  · exact test.supported_Nested

theorem test.supported_TwoLevels :
    Supported test.msvc test.TwoFieldsTwoLevelsOfNestedStructs := by
  refine Supported.aggr _ _ ?_ (by simp) (by decide) (by decide)
  intro F hF
  simp only [List.mem_cons, List.mem_singleton, List.not_mem_nil, or_false] at hF
  rcases hF with rfl | rfl
  · exact test.supported_prim _
  · exact test.supported_NestedWithNested


/-! ### Tuples and the binary round trip -/

mutual

theorem HasType_widths (cfg : Config) :
    ∀ (x : Value ByteImage) (T : CType), HasType cfg x T →
      (ToTuple x).map List.length = (leafKinds T).map cfg.sizeofPrim
  | .leaf image, .prim p, h => by
    simp only [HasType] at h
    simp [ToTuple, leafKinds, h]
  | .leaf image, .enum u, h => by
    simp only [HasType] at h
    simp [ToTuple, leafKinds, h]
  | .leaf _, .aggr _ _, h => by simp [HasType] at h
  | .leaf _, .other _, h => by simp [HasType] at h
  | .aggr vs, .aggr _ fields, h => by
    simp only [HasType] at h
    simp only [ToTuple, leafKinds]
    exact HasType_ofFields_widths cfg vs fields h
  | .aggr _, .prim _, h => by simp [HasType] at h
  | .aggr _, .enum _, h => by simp [HasType] at h
  | .aggr _, .other _, h => by simp [HasType] at h

theorem HasType_ofFields_widths (cfg : Config) :
    ∀ (vs : List (Value ByteImage)) (Fs : List CType), HasType.ofFields cfg vs Fs →
      (ToTuple.ofFields vs).map List.length = (leafKinds.ofFields Fs).map cfg.sizeofPrim
  | [], [], _ => by simp [ToTuple.ofFields, leafKinds.ofFields]
  | [], _ :: _, h => by simp [HasType.ofFields] at h
  | _ :: _, [], h => by simp [HasType.ofFields] at h
  | v :: vs, F :: Fs, h => by
    simp only [HasType.ofFields] at h
    simp only [ToTuple.ofFields, leafKinds.ofFields, List.map_append]
    rw [HasType_widths cfg v F h.1, HasType_ofFields_widths cfg vs Fs h.2]

end

mutual

theorem FromTuple_ToTuple (cfg : Config) :
    ∀ (y x : Value ByteImage) (T : CType), HasType cfg x T → HasType cfg y T →
      ∀ rest : List ByteImage, FromTuple y (ToTuple x ++ rest) = (x, rest)
  | .leaf _, .leaf _, _, _, _ => by
    intro rest
    simp [ToTuple, FromTuple]
  | .leaf _, .aggr _, .prim _, hx, _ => by simp [HasType] at hx
  | .leaf _, .aggr _, .enum _, hx, _ => by simp [HasType] at hx
  | .leaf _, .aggr _, .other _, hx, _ => by simp [HasType] at hx
  | .leaf _, .aggr _, .aggr _ _, _, hy => by simp [HasType] at hy
  | .aggr _, .leaf _, .prim _, _, hy => by simp [HasType] at hy
  | .aggr _, .leaf _, .enum _, _, hy => by simp [HasType] at hy
  | .aggr _, .leaf _, .other _, _, hy => by simp [HasType] at hy
  | .aggr _, .leaf _, .aggr _ _, hx, _ => by simp [HasType] at hx
  | .aggr _, .aggr _, .prim _, hx, _ => by simp [HasType] at hx
  | .aggr _, .aggr _, .enum _, hx, _ => by simp [HasType] at hx
  | .aggr _, .aggr _, .other _, hx, _ => by simp [HasType] at hx
  | .aggr ws, .aggr vs, .aggr _ fields, hx, hy => by
    intro rest
    simp only [HasType] at hx hy
    simp only [ToTuple, FromTuple, FromTuple_ToTuple_ofFields cfg ws vs fields hx hy rest]

theorem FromTuple_ToTuple_ofFields (cfg : Config) :
    ∀ (ws vs : List (Value ByteImage)) (Fs : List CType),
      HasType.ofFields cfg vs Fs → HasType.ofFields cfg ws Fs →
      ∀ rest : List ByteImage,
        FromTuple.ofFields ws (ToTuple.ofFields vs ++ rest) = (vs, rest)
  | [], [], _, _, _ => by
    intro rest
    simp [ToTuple.ofFields, FromTuple.ofFields]
  | [], _ :: _, [], hx, _ => by simp [HasType.ofFields] at hx
  | [], _ :: _, _ :: _, _, hy => by simp [HasType.ofFields] at hy
  | _ :: _, [], [], _, hy => by simp [HasType.ofFields] at hy
  | _ :: _, [], _ :: _, hx, _ => by simp [HasType.ofFields] at hx
  | _ :: _, _ :: _, [], hx, _ => by simp [HasType.ofFields] at hx
  | w :: ws, v :: vs, F :: Fs, hx, hy => by
    intro rest
    simp only [HasType.ofFields] at hx hy
    simp only [ToTuple.ofFields, FromTuple.ofFields, List.append_assoc,
      FromTuple_ToTuple cfg w v F hx.1 hy.1,
      FromTuple_ToTuple_ofFields cfg ws vs Fs hx.2 hy.2]

end

theorem widthOfId_id (cfg : Config) (k : Prim) :
    widthOfId cfg (_GetIdByType k) = .ok (cfg.sizeofPrim k) := by
  simp [widthOfId, _GetTypeById_GetIdByType]

theorem appendLeaves_spec (cfg : Config) :
    ∀ (ks : List Prim) (images : List ByteImage) (buffer : BinaryBuffer),
      images.map List.length = ks.map cfg.sizeofPrim →
      BinarySerializer.appendLeaves cfg (ks.map _GetIdByType) images buffer
        = .ok (buffer ++ images.flatten)
  | [], [], buffer, _ => by simp [BinarySerializer.appendLeaves]
  | [], _ :: _, _, h => by simp at h
  | _ :: _, [], _, h => by simp at h
  | k :: ks, image :: images, buffer, h => by
    simp only [List.map_cons, List.cons.injEq] at h
    simp only [List.map_cons, BinarySerializer.appendLeaves, widthOfId_id, ok_bind, h.1,
      Nat.lt_irrefl, if_false]
    rw [← h.1, List.take_length, appendLeaves_spec cfg ks images _ h.2]
    simp

theorem readLeaves_spec (cfg : Config) :
    ∀ (ks : List Prim) (images : List ByteImage) (rest : BinaryBuffer),
      images.map List.length = ks.map cfg.sizeofPrim →
      BinarySerializer.readLeaves cfg (ks.map _GetIdByType) (images.flatten ++ rest)
        = .ok (images, rest)
  | [], [], rest, _ => by simp [BinarySerializer.readLeaves]
  | [], _ :: _, _, h => by simp at h
  | _ :: _, [], _, h => by simp at h
  | k :: ks, image :: images, rest, h => by
    simp only [List.map_cons, List.cons.injEq] at h
    have hlen : ¬ (image ++ (images.flatten ++ rest)).length < cfg.sizeofPrim k := by
      rw [← h.1]
      simp
    simp only [List.map_cons, BinarySerializer.readLeaves, widthOfId_id, ok_bind,
      List.flatten_cons, List.append_assoc, hlen, if_false]
    rw [← h.1, List.drop_left, List.take_left, readLeaves_spec cfg ks images rest h.2]
    rfl

theorem binary_round_trip (cfg : Config) (size : Nat) (fields : List CType)
    (hT : Supported cfg (.aggr size fields)) (x y : Value ByteImage)
    (hx : HasType cfg x (.aggr size fields)) (hy : HasType cfg y (.aggr size fields)) :
    BinarySerializer.Serialize cfg (.aggr size fields) x [] = .ok (ToTuple x).flatten ∧
    BinarySerializer.Deserialize cfg (.aggr size fields) y (ToTuple x).flatten = .ok (x, []) := by
  have hids := GetTypeIds_supported cfg size fields hT
  rw [LeafIdSequence_eq_map_leafKinds] at hids
  have hw := HasType_widths cfg x _ hx
  constructor
  · simp only [BinarySerializer.Serialize, hids, ok_bind]
    rw [appendLeaves_spec cfg _ _ _ hw]
    simp
  · simp only [BinarySerializer.Deserialize, hids, ok_bind]
    have hr := readLeaves_spec cfg _ _ [] hw
    rw [List.append_nil] at hr
    rw [hr, ok_bind, pure_eq_ok]
    have hf := FromTuple_ToTuple cfg y x _ hx hy []
    rw [List.append_nil] at hf
    rw [hf]

/-! ### Tokens of the text serializer -/

theorem digitChar_isDigit (d : Nat) (h : d < 10) :
    (Nat.digitChar d).isDigit = true ∧ (Nat.digitChar d).toNat - '0'.toNat = d ∧
      Nat.digitChar d ≠ '-' := by
  interval_cases d <;> decide

theorem readDigits_spec :
    ∀ (bs : List Nat) (acc : Nat) (rest : List Char), (∀ d ∈ bs, d < 10) →
      readDigits (bs.map Nat.digitChar ++ delimiter :: rest) acc
        = (bs.foldl (fun a d => a * 10 + d) acc, delimiter :: rest)
  | [], acc, rest, _ => by
    have : delimiter.isDigit = false := by decide
    simp [readDigits, this]
  | b :: bs, acc, rest, h => by
    obtain ⟨h1, h2, _⟩ := digitChar_isDigit b (h b (List.mem_cons_self _ _))
    simp only [List.map_cons, List.cons_append, readDigits, h1, if_true, h2, List.foldl_cons]
    exact readDigits_spec bs _ rest (fun d hd => h d (List.mem_cons_of_mem _ hd))

theorem foldr_digits (L : List Nat) :
    L.foldr (fun d a => a * 10 + d) 0 = Nat.ofDigits 10 L := by
  induction L with
  | nil => simp
  | cons d L ih =>
    simp only [List.foldr_cons, ih, Nat.ofDigits_cons]
    omega

theorem encodeNat_digits (n : Nat) :
    ∃ bs : List Nat, encodeNat n = bs.map Nat.digitChar ∧ (∀ d ∈ bs, d < 10) ∧
      bs.foldl (fun a d => a * 10 + d) 0 = n ∧ bs ≠ [] := by
  by_cases hn : n = 0
  · subst hn
    exact ⟨[0], by simp [encodeNat]; rfl, by simp, by simp, by simp⟩
  · refine ⟨(Nat.digits 10 n).reverse, by simp [encodeNat, hn], ?_, ?_, ?_⟩
    · intro d hd
      exact Nat.digits_lt_base (by decide) (List.mem_reverse.1 hd)
    · rw [List.foldl_reverse, foldr_digits, Nat.ofDigits_digits]
    · simpa using Nat.digits_ne_nil_iff_ne_zero.2 hn

theorem decodeNat_encodeNat (n : Nat) (rest : List Char) :
    decodeNat (encodeNat n ++ delimiter :: rest) = some (n, rest) := by
  obtain ⟨bs, hbs, hlt, hval, _⟩ := encodeNat_digits n
  simp [decodeNat, hbs, readDigits_spec bs 0 rest hlt, hval]

theorem readDigits_stop :
    ∀ (bs : List Nat) (acc : Nat) (c : Char) (rest : List Char), (∀ d ∈ bs, d < 10) →
      c.isDigit = false →
      readDigits (bs.map Nat.digitChar ++ c :: rest) acc
        = (bs.foldl (fun a d => a * 10 + d) acc, c :: rest)
  | [], acc, c, rest, _, hc => by
    simp [readDigits, hc]
  | b :: bs, acc, c, rest, h, hc => by
    obtain ⟨h1, h2, _⟩ := digitChar_isDigit b (h b (List.mem_cons_self _ _))
    simp only [List.map_cons, List.cons_append, readDigits, h1, if_true, h2, List.foldl_cons]
    exact readDigits_stop bs _ c rest (fun d hd => h d (List.mem_cons_of_mem _ hd)) hc

theorem fixedDigits_length : ∀ (w v : Nat), (fixedDigits w v).length = w
  | 0, _ => rfl
  | w + 1, v => by simp [fixedDigits, fixedDigits_length w]

theorem fixedDigits_lt : ∀ (w v d : Nat), d ∈ fixedDigits w v → d < 10
  | 0, _, d, h => by simp [fixedDigits] at h
  | w + 1, v, d, h => by
    simp only [fixedDigits, List.mem_append, List.mem_singleton] at h
    rcases h with h | h
    · exact fixedDigits_lt w _ d h
    · omega

theorem fixedDigits_foldl :
    ∀ (w v acc : Nat),
      (fixedDigits w v).foldl (fun a d => a * 10 + d) acc = acc * 10 ^ w + v % 10 ^ w
  | 0, v, acc => by simp [fixedDigits, Nat.mod_one]
  | w + 1, v, acc => by
    have hmod : v % (10 * 10 ^ w) = v % 10 + 10 * (v / 10 % 10 ^ w) := Nat.mod_mul
    simp only [fixedDigits, List.foldl_append, List.foldl_cons, List.foldl_nil,
      fixedDigits_foldl w (v / 10) acc]
    rw [pow_succ, Nat.mul_comm (10 ^ w) 10, hmod]
    ring

theorem decodeFixed_encodeFixed (N e : Nat) (rest : List Char) :
    decodeFixed (encodeFixed N e ++ rest) = some (N, e, rest) := by
  obtain ⟨bs, hbs, hlt, hval, _⟩ := encodeNat_digits (N / 10 ^ e)
  have hpoint : ('.' : Char).isDigit = false := by decide
  have h1 := readDigits_stop bs 0 '.'
    ((fixedDigits e (N % 10 ^ e)).map Nat.digitChar ++ delimiter :: rest) hlt hpoint
  have h2 := readDigits_spec (fixedDigits e (N % 10 ^ e)) 0 rest
    (fun d hd => fixedDigits_lt e _ d hd)
  rw [fixedDigits_foldl, Nat.zero_mul, Nat.zero_add, Nat.mod_mod] at h2
  rw [hval] at h1
  have hlen : ((fixedDigits e (N % 10 ^ e)).map Nat.digitChar ++ delimiter :: rest).length
      - (rest.length + 1) = e := by
    simp [fixedDigits_length]
  have hN : N / 10 ^ e * 10 ^ e + N % 10 ^ e = N := Nat.div_add_mod' N (10 ^ e)
  simp only [decodeFixed, encodeFixed, hbs, List.append_assoc, List.cons_append,
    List.nil_append, h1, h2, hlen, hN, if_true]

theorem encodeFixed_head (N e : Nat) :
    ∃ (c : Char) (cs : List Char), encodeFixed N e = c :: cs ∧ c ≠ '-' := by
  obtain ⟨bs, hbs, hlt, _, hne⟩ := encodeNat_digits (N / 10 ^ e)
  obtain ⟨b, bs2, rfl⟩ := List.exists_cons_of_ne_nil hne
  exact ⟨Nat.digitChar b, bs2.map Nat.digitChar ++ '.' ::
      ((fixedDigits e (N % 10 ^ e)).map Nat.digitChar ++ [delimiter]),
    by simp only [encodeFixed, hbs, List.map_cons, List.cons_append],
    (digitChar_isDigit b (hlt b (List.mem_cons_self _ _))).2.2⟩

theorem decodeLeaf_encodeLeaf (leaf : TextLeaf) (rest : List Char) :
    decodeLeaf leaf.kind (encodeLeaf leaf ++ rest) = some (leaf, rest) := by
  cases leaf with
  | number n =>
    by_cases hneg : n < 0
    · simp [TextLeaf.kind, encodeLeaf, hneg, decodeLeaf, decodeNat_encodeNat, abs_of_neg hneg]
    · obtain ⟨bs, hbs, hlt, _, hne⟩ := encodeNat_digits n.natAbs
      obtain ⟨b, bs2, rfl⟩ := List.exists_cons_of_ne_nil hne
      have hb := (digitChar_isDigit b (hlt b (List.mem_cons_self _ _))).2.2
      have hdec := decodeNat_encodeNat n.natAbs rest
      have hn : ((n.natAbs : Nat) : Int) = n := by omega
      simp only [TextLeaf.kind, encodeLeaf, hneg, if_false, List.append_assoc,
        List.singleton_append] at hdec ⊢
      rw [hbs] at hdec ⊢
      simp only [List.map_cons, List.cons_append, decodeLeaf, hb, if_false] at hdec ⊢
      rw [hdec]
      simp [hn]
  | floating m e =>
    have hpos : 0 < 5 ^ e := pow_pos (by decide) e
    have hdiv : m.natAbs * 5 ^ e / 5 ^ e = m.natAbs := Nat.mul_div_cancel _ hpos
    have hdec := decodeFixed_encodeFixed (m.natAbs * 5 ^ e) e rest
    by_cases hneg : m < 0
    · have hm : -((m.natAbs : Nat) : Int) = m := by omega
      simp only [TextLeaf.kind, encodeLeaf, hneg, if_true, List.cons_append, decodeLeaf, hdec,
        hdiv, hm]
    · obtain ⟨c, cs, hcs, hc⟩ := encodeFixed_head (m.natAbs * 5 ^ e) e
      have hm : ((m.natAbs : Nat) : Int) = m := by omega
      simp only [TextLeaf.kind, encodeLeaf, hneg, if_false]
      rw [hcs] at hdec ⊢
      simp only [List.cons_append, decodeLeaf, hc, if_false] at hdec ⊢
      rw [hdec]
      simp only [hdiv, hm]
  | character c => simp [TextLeaf.kind, encodeLeaf, decodeLeaf]
  | text s => simp [TextLeaf.kind, encodeLeaf, decodeLeaf, decodeNat_encodeNat]

theorem text_readLeaves_spec :
    ∀ (leaves : List TextLeaf) (rest : StringStreamBuffer),
      StringStreamSerializer.readLeaves (leaves.map TextLeaf.kind)
          ((leaves.map encodeLeaf).flatten ++ rest)
        = .ok (leaves, rest)
  | [], rest => by simp [StringStreamSerializer.readLeaves]
  | leaf :: leaves, rest => by
    simp only [List.map_cons, List.flatten_cons, List.append_assoc,
      StringStreamSerializer.readLeaves, decodeLeaf_encodeLeaf,
      text_readLeaves_spec leaves rest, ok_bind, pure_eq_ok]

mutual

theorem FromTuple_ToTuple_of_sameShape {L : Type} :
    ∀ (x y : Value L), SameShape x y →
      ∀ rest : List L, FromTuple y (ToTuple x ++ rest) = (x, rest)
  | .leaf _, .leaf _, _ => by
    intro rest
    simp [ToTuple, FromTuple]
  | .leaf _, .aggr _, h => by simp [SameShape] at h
  | .aggr _, .leaf _, h => by simp [SameShape] at h
  | .aggr vs, .aggr ws, h => by
    intro rest
    simp only [SameShape] at h
    simp only [ToTuple, FromTuple, FromTuple_ToTuple_ofFields_of_sameShape vs ws h rest]

theorem FromTuple_ToTuple_ofFields_of_sameShape {L : Type} :
    ∀ (vs ws : List (Value L)), SameShape.ofFields vs ws →
      ∀ rest : List L, FromTuple.ofFields ws (ToTuple.ofFields vs ++ rest) = (vs, rest)
  | [], [], _ => by
    intro rest
    simp [ToTuple.ofFields, FromTuple.ofFields]
  | [], _ :: _, h => by simp [SameShape.ofFields] at h
  | _ :: _, [], h => by simp [SameShape.ofFields] at h
  | v :: vs, w :: ws, h => by
    intro rest
    simp only [SameShape.ofFields] at h
    simp only [ToTuple.ofFields, FromTuple.ofFields, List.append_assoc,
      FromTuple_ToTuple_of_sameShape v w h.1,
      FromTuple_ToTuple_ofFields_of_sameShape vs ws h.2]

end

theorem text_round_trip (x y : Value TextLeaf) (h : SameType x y) :
    StringStreamSerializer.Deserialize y (StringStreamSerializer.Serialize x []) = .ok (x, []) := by
  obtain ⟨hshape, hkinds⟩ := h
  have hr := text_readLeaves_spec (ToTuple x) []
  rw [List.append_nil] at hr
  have hf := FromTuple_ToTuple_of_sameShape x y hshape []
  rw [List.append_nil] at hf
  simp only [StringStreamSerializer.Deserialize, StringStreamSerializer.Serialize,
    List.nil_append, ← hkinds, hr, ok_bind, pure_eq_ok, hf]


theorem test.hasType_originalWithEnum :
    HasType test.msvc test.originalWithEnum test.ThreeFieldsWithEnum := by
  simp [test.originalWithEnum, test.ThreeFieldsWithEnum, HasType, HasType.ofFields, test.msvc,
    test.msvcSizeof]

theorem test.hasType_loadedWithEnum :
    HasType test.msvc test.loadedWithEnum test.ThreeFieldsWithEnum := by
  simp [test.loadedWithEnum, test.ThreeFieldsWithEnum, HasType, HasType.ofFields, test.msvc,
    test.msvcSizeof]

theorem test.sameType_NotPod : SameType test.originalNotPod test.loadedNotPod := by
  simp [SameType, test.originalNotPod, test.loadedNotPod, test.double_3_14, test.double_2_71,
    SameShape, SameShape.ofFields, ToTuple, ToTuple.ofFields, TextLeaf.kind]

theorem test.sameType_NestedStruct :
    SameType test.originalNestedStruct test.loadedNestedStruct := by
  simp [SameType, test.originalNestedStruct, test.loadedNestedStruct, test.double_3_14,
    test.double_2_71, SameShape, SameShape.ofFields, ToTuple, ToTuple.ofFields, TextLeaf.kind]

/-! ### Layout conditions -/

theorem Supported.wellFormed {cfg : Config} {T : CType} (h : Supported cfg T) :
    WellFormed cfg T := by
  induction h with
  | prim p hp => exact WellFormed.prim p hp
  | enum u hu => exact WellFormed.enum u hu
  | aggr size fields _ hne _ hsum ih => exact WellFormed.aggr size fields ih hne hsum

theorem WellFormed.wellSized {cfg : Config} {T : CType} (h : WellFormed cfg T) :
    WellSized cfg T := by
  induction h with
  | prim p hp => exact WellSized.prim p hp
  | enum u hu => exact WellSized.enum u hu
  | other n => exact WellSized.other n
  | aggr size fields _ _ hsum ih => exact WellSized.aggr size fields ih hsum

theorem leafCount_ofFields_le (cfg : Config) :
    ∀ Fs : List CType, (∀ F ∈ Fs, leafCount F ≤ sizeof cfg F) →
      leafCount.ofFields Fs ≤ sumSizes cfg Fs := by
  intro Fs
  induction Fs with
  | nil => intro _; simp [leafCount.ofFields, sumSizes]
  | cons F Fs ih =>
    intro h
    have h1 := h F (List.mem_cons_self _ _)
    have h2 := ih (fun G hG => h G (List.mem_cons_of_mem _ hG))
    simp only [leafCount.ofFields, sumSizes_cons]
    omega

theorem leafCount_le_sizeof (cfg : Config) (T : CType) (h : WellSized cfg T) :
    leafCount T ≤ sizeof cfg T := by
  induction h with
  | prim p hp => simpa [leafCount, sizeof] using hp
  | enum u hu => simpa [leafCount, sizeof] using hu
  | other n => simp [leafCount]
  | aggr size fields _ hsum ih =>
    have := leafCount_ofFields_le cfg fields ih
    simp only [leafCount, sizeof]
    omega

/-! ### Prefix sums of the sizes of the fields -/

theorem sumSizes_take_add_drop (cfg : Config) (Fs : List CType) (i : Nat) :
    sumSizes cfg (Fs.take i) + sumSizes cfg (Fs.drop i) = sumSizes cfg Fs := by
  rw [← sumSizes_append, List.take_append_drop]

theorem sumSizes_take_succ (cfg : Config) (Fs : List CType) (i : Nat) (F : CType)
    (hF : Fs[i]? = some F) :
    sumSizes cfg (Fs.take (i + 1)) = sumSizes cfg (Fs.take i) + sizeof cfg F := by
  rw [List.take_succ, hF, sumSizes_append]
  simp [sumSizes]

theorem sumSizes_take_mono (cfg : Config) (Fs : List CType) (i j : Nat) (h : i ≤ j) :
    sumSizes cfg (Fs.take i) ≤ sumSizes cfg (Fs.take j) := by
  have h1 := sumSizes_take_add_drop cfg (Fs.take j) i
  rw [List.take_take, Nat.min_eq_left h] at h1
  omega

theorem sumSizes_take_le (cfg : Config) (Fs : List CType) (i : Nat) :
    sumSizes cfg (Fs.take i) ≤ sumSizes cfg Fs := by
  have := sumSizes_take_add_drop cfg Fs i
  omega

theorem field_range_le (cfg : Config) (Fs : List CType) (i : Nat) (F : CType)
    (hF : Fs[i]? = some F) :
    sumSizes cfg (Fs.take i) + sizeof cfg F ≤ sumSizes cfg Fs := by
  rw [← sumSizes_take_succ cfg Fs i F hF]
  exact sumSizes_take_le cfg Fs (i + 1)

theorem field_ranges_disjoint (cfg : Config) (Fs : List CType) (i j : Nat) (F : CType)
    (hF : Fs[i]? = some F) (hij : i < j) :
    sumSizes cfg (Fs.take i) + sizeof cfg F ≤ sumSizes cfg (Fs.take j) := by
  rw [← sumSizes_take_succ cfg Fs i F hF]
  exact sumSizes_take_mono cfg Fs (i + 1) j hij

/-! ### The field counter beyond its bound -/

theorem GetFieldsCount_aggr_exceeds (cfg : Config) (size : Nat) (fields : List CType)
    (h : cfg.MAX_FIELDS < fields.length) :
    GetFieldsCount cfg (.aggr size fields) = .error .UnsupportedType := by
  have hacc : acceptsInit (.aggr size fields) (cfg.MAX_FIELDS + 1) = true := by
    simp only [acceptsInit, decide_eq_true_eq]
    omega
  simp [GetFieldsCount, is_supported_type, hacc]

/-! ### Types with a member that is not supported -/

theorem _GetIdsByType_other (cfg : Config) (n : Nat) :
    _GetIdsByType cfg (.other n) = .error .UnsupportedType := by
  rw [_GetIdsByType]
  simp [is_supported_type]

theorem _Cast_Impl_other (cfg : Config) (n : Nat) (idsRaw : List Nat) (pTypeIds : Nat) :
    _Cast_Impl cfg (.other n) idsRaw pTypeIds = .error .UnsupportedType := by
  rw [_Cast_Impl]
  simp [is_registered_or_aliased, _GetIdsByType_other, error_bind]

theorem temporary2_fails (cfg : Config) :
    ∀ Fs : List CType,
      (∀ F ∈ Fs, Supported cfg F ∨
        ∀ (pre : List Nat) (m : Nat), sizeof cfg F ≤ m →
          _Cast_Impl cfg F (pre ++ List.replicate m 0) pre.length = .error .UnsupportedType) →
      (∃ F ∈ Fs, ¬ Supported cfg F) →
      ∀ (k : Nat) (pre : List Nat) (m : Nat) (offs : List Nat),
        (∀ j, j < Fs.length → offs[k + j]? = some (pre.length + sumSizes cfg (Fs.take j))) →
        sumSizes cfg Fs ≤ m →
        temporary2 cfg Fs (List.range' k Fs.length) offs (pre ++ List.replicate m 0)
          = .error .UnsupportedType := by
  intro Fs
  induction Fs with
  | nil =>
    intro _ hex
    obtain ⟨F, hF, _⟩ := hex
    simp at hF
  | cons F Fs ih =>
    intro hall hex k pre m offs hoffs hsum
    rw [sumSizes_cons] at hsum
    have hrange : List.range' k (F :: Fs).length = k :: List.range' (k + 1) Fs.length := by
      simp [List.range'_succ]
    have hread : readAt offs k = .ok pre.length := by
      have := hoffs 0 (by simp)
      simp only [Nat.add_zero, List.take_zero, sumSizes_nil] at this
      exact readAt_of_getElem? this
    rw [hrange, temporary2]
    rcases hall F (List.mem_cons_self _ _) with hS | hbad
    · have hlenF := rawImage_length cfg F hS
      simp only [hread, ok_bind, (flatten_main cfg F hS).1 pre m (by omega)]
      have hex2 : ∃ G ∈ Fs, ¬ Supported cfg G := by
        obtain ⟨G, hG, hnG⟩ := hex
        rcases List.mem_cons.1 hG with rfl | hG2
        · exact absurd hS hnG
        · exact ⟨G, hG2, hnG⟩
      exact ih (fun G hG => hall G (List.mem_cons_of_mem _ hG)) hex2 (k + 1)
        (pre ++ rawImage cfg F) (m - sizeof cfg F) offs
        (by
          intro j hj
          have := hoffs (j + 1) (by simp; omega)
          rw [List.take_succ_cons, sumSizes_cons] at this
          rw [List.length_append, hlenF, Nat.add_assoc, Nat.add_comm 1 j, this]
          congr 1
          omega)
        (by omega)
    · simp only [hread, ok_bind, hbad pre m (by omega), error_bind]

theorem _GetIdsRaw_Impl_fails (cfg : Config) (size : Nat) (fields : List CType)
    (hall : ∀ F ∈ fields, Supported cfg F ∨
        ∀ (pre : List Nat) (m : Nat), sizeof cfg F ≤ m →
          _Cast_Impl cfg F (pre ++ List.replicate m 0) pre.length = .error .UnsupportedType)
    (hex : ∃ F ∈ fields, ¬ Supported cfg F) (hsum : sumSizes cfg fields ≤ size) :
    _GetIdsRaw_Impl cfg (.aggr size fields) (List.range fields.length)
      = .error .UnsupportedType := by
  rw [_GetIdsRaw_Impl]
  obtain ⟨offs2, szs2, h1, _, hoffs⟩ :=
    temporary1_spec cfg fields fields.length (Nat.le_refl _) fields 0
      (SizeTArray.zeros fields.length) (SizeTArray.zeros fields.length) (by simp)
      (by simp [SizeTArray.zeros]) (by simp [SizeTArray.zeros])
      (fun j hj => absurd hj (Nat.not_lt_zero j)) (fun j hj => absurd hj (Nat.not_lt_zero j))
  rw [← List.range_eq_range'] at h1
  simp only [List.length_range, h1, ok_bind]
  have h2 := temporary2_fails cfg fields hall hex 0 [] size offs2
    (by
      intro j hj
      simpa using hoffs j hj)
    hsum
  rw [← List.range_eq_range'] at h2
  simpa [SizeTArray.zeros] using h2

theorem exists_unsupported_field {cfg : Config} {size : Nat} {fields : List CType}
    (hwf : WellFormed cfg (.aggr size fields)) (hns : ¬ Supported cfg (.aggr size fields))
    (hmax : fields.length ≤ cfg.MAX_FIELDS) : ∃ F ∈ fields, ¬ Supported cfg F := by
  by_contra hcon
  apply hns
  cases hwf with
  | aggr _ _ _ hne hsum =>
    refine Supported.aggr size fields ?_ hne hmax hsum
    intro F hF
    by_contra hF2
    exact hcon ⟨F, hF, hF2⟩

theorem unsupported_main (cfg : Config) (F : CType) (hF : WellFormed cfg F) :
    ¬ Supported cfg F →
    (∀ (pre : List Nat) (m : Nat), sizeof cfg F ≤ m →
        _Cast_Impl cfg F (pre ++ List.replicate m 0) pre.length = .error .UnsupportedType) ∧
    _GetIdsByType cfg F = .error .UnsupportedType := by
  induction hF with
  | prim p hp => intro h; exact absurd (Supported.prim p hp) h
  | enum u hu => intro h; exact absurd (Supported.enum u hu) h
  | other n =>
    intro _
    exact ⟨fun pre m _ => _Cast_Impl_other cfg n _ _, _GetIdsByType_other cfg n⟩
  | aggr size fields hfields hne hsum ih =>
    intro hns
    have hby : _GetIdsByType cfg (.aggr size fields) = .error .UnsupportedType := by
      rw [_GetIdsByType]
      by_cases hmax : fields.length ≤ cfg.MAX_FIELDS
      · simp only [is_supported_type, if_true, GetFieldsCount_aggr cfg size fields hmax, ok_bind]
        refine _GetIdsRaw_Impl_fails cfg size fields ?_
          (exists_unsupported_field (WellFormed.aggr size fields hfields hne hsum) hns hmax) hsum
        intro G hG
        by_cases hS : Supported cfg G
        · exact Or.inl hS
        · exact Or.inr (ih G hG hS).1
      · simp only [is_supported_type, if_true,
          GetFieldsCount_aggr_exceeds cfg size fields (by omega), error_bind]
    refine ⟨?_, hby⟩
    intro pre m _
    rw [_Cast_Impl_aggr, hby, error_bind]

theorem GetTypeIds_unsupported (cfg : Config) (size : Nat) (fields : List CType)
    (hwf : WellFormed cfg (.aggr size fields)) (hns : ¬ Supported cfg (.aggr size fields)) :
    GetTypeIds cfg (.aggr size fields) = .error .UnsupportedType := by
  by_cases hmax : fields.length ≤ cfg.MAX_FIELDS
  · have hsum : sumSizes cfg fields ≤ size := by
      cases hwf with
      | aggr _ _ _ _ hsum => exact hsum
    have hfields : ∀ F ∈ fields, WellFormed cfg F := by
      cases hwf with
      | aggr _ _ hfields _ _ => exact hfields
    have hraw := _GetIdsRaw_Impl_fails cfg size fields
      (fun G hG => by
        by_cases hS : Supported cfg G
        · exact Or.inl hS
        · exact Or.inr (unsupported_main cfg G (hfields G hG) hS).1)
      (exists_unsupported_field hwf hns hmax) hsum
    simp only [GetTypeIds, is_supported_type, if_true, GetFieldsCount_aggr cfg size fields hmax,
      ok_bind, _GetTypeIds_Impl, hraw, error_bind]
  · simp only [GetTypeIds, is_supported_type, if_true,
      GetFieldsCount_aggr_exceeds cfg size fields (by omega), error_bind]

/-! ### The slice of a field in the raw array -/

theorem rawImage_ofFields_append (cfg : Config) (A B : List CType) :
    rawImage.ofFields cfg (A ++ B) = rawImage.ofFields cfg A ++ rawImage.ofFields cfg B := by
  induction A with
  | nil => simp [rawImage.ofFields]
  | cons F A ih => simp [rawImage.ofFields, ih]

theorem fields_split {fields : List CType} {i : Nat} {F : CType} (hF : fields[i]? = some F) :
    fields = fields.take i ++ F :: fields.drop (i + 1) := by
  have hi : i < fields.length := by
    by_contra hc
    rw [List.getElem?_eq_none (by omega)] at hF
    cases hF
  have h := List.drop_eq_getElem_cons hi
  rw [List.getElem?_eq_getElem hi] at hF
  injection hF with hF
  rw [hF] at h
  rw [← h, List.take_append_drop]

theorem rawImage_field_slice (cfg : Config) (size : Nat) (fields : List CType)
    (hT : Supported cfg (.aggr size fields)) (i : Nat) (F : CType) (hF : fields[i]? = some F) :
    ∃ before after : List Nat,
      rawImage cfg (.aggr size fields) = before ++ rawImage cfg F ++ after ∧
      before.length = sumSizes cfg (fields.take i) ∧
      (rawImage cfg F).length = sizeof cfg F := by
  have hmem : ∀ G ∈ fields.take i, Supported cfg G :=
    fun G hG => hT.of_mem (List.mem_of_mem_take hG)
  have hFmem : F ∈ fields := List.getElem?_mem hF
  refine ⟨rawImage.ofFields cfg (fields.take i),
    rawImage.ofFields cfg (fields.drop (i + 1))
      ++ List.replicate (size - sumSizes cfg fields) 0, ?_, ?_,
    rawImage_length cfg F (hT.of_mem hFmem)⟩
  · have hsplit := fields_split hF
    have : rawImage.ofFields cfg fields
        = rawImage.ofFields cfg (fields.take i) ++ rawImage cfg F
          ++ rawImage.ofFields cfg (fields.drop (i + 1)) := by
      conv_lhs => rw [hsplit]
      rw [rawImage_ofFields_append]
      simp [rawImage.ofFields]
    simp only [rawImage, this, List.append_assoc]
  · exact rawImage_ofFields_length cfg _ (fun G hG => rawImage_length cfg G (hmem G hG))

/-! ### What a conversion leaves unchanged -/

theorem splice_getElem? (raw ids : List Nat) (p idx : Nat) (h : p + ids.length ≤ raw.length)
    (hidx : idx < p ∨ p + ids.length ≤ idx) :
    (raw.take p ++ ids ++ raw.drop (p + ids.length))[idx]? = raw[idx]? := by
  have hlen : (raw.take p).length = p := by simp; omega
  rcases hidx with h1 | h2
  · rw [List.append_assoc, List.getElem?_append_left (by omega), List.getElem?_take]
    simp [h1]
  · rw [List.getElem?_append_right (by simp; omega), List.getElem?_drop]
    congr 1
    simp
    omega

theorem splice_length (raw ids : List Nat) (p : Nat) (h : p + ids.length ≤ raw.length) :
    (raw.take p ++ ids ++ raw.drop (p + ids.length)).length = raw.length := by
  simp
  omega

theorem _Cast_Impl_frame (cfg : Config) (F : CType) (hF : Supported cfg F) (raw : List Nat)
    (p : Nat) (hp : p + sizeof cfg F ≤ raw.length) :
    ∃ raw2, _Cast_Impl cfg F raw p = .ok raw2 ∧ raw2.length = raw.length ∧
      ∀ idx, idx < p ∨ p + sizeof cfg F ≤ idx → raw2[idx]? = raw[idx]? := by
  cases hF with
  | prim k hk =>
    simp only [sizeof] at hp
    refine ⟨raw.set p (_GetIdByType k), ?_, by simp, ?_⟩
    · rw [_Cast_Impl_prim]
      simp only [Assign, Nat.add_zero]
      exact writeAt_of_lt _ (by omega)
    · intro idx hidx
      simp only [sizeof] at hidx
      exact List.getElem?_set_ne (by omega)
  | enum k hk =>
    simp only [sizeof] at hp
    refine ⟨raw.set p (_GetIdByType k), ?_, by simp, ?_⟩
    · rw [_Cast_Impl_enum]
      simp only [Assign, Nat.add_zero]
      exact writeAt_of_lt _ (by omega)
    · intro idx hidx
      simp only [sizeof] at hidx
      exact List.getElem?_set_ne (by omega)
  | aggr size fields hfields hne hmax hsum =>
    have hS := Supported.aggr size fields hfields hne hmax hsum
    have hby := (flatten_main cfg _ hS).2 rfl
    have hlen := rawImage_length cfg _ hS
    simp only [sizeof] at hp hlen
    have hsteps := AssignArray_steps raw (rawImage cfg (.aggr size fields)) p size
      (by omega) hp
    have htake : List.take size (rawImage cfg (.aggr size fields))
        = rawImage cfg (.aggr size fields) := by
      exact List.take_of_length_le (by omega)
    rw [htake] at hsteps
    refine ⟨raw.take p ++ rawImage cfg (.aggr size fields) ++ raw.drop (p + size), ?_, ?_, ?_⟩
    · rw [_Cast_Impl_aggr, hby, ok_bind]
      exact hsteps
    · have := splice_length raw (rawImage cfg (.aggr size fields)) p (by omega)
      rwa [hlen] at this
    · intro idx hidx
      simp only [sizeof] at hidx
      have := splice_getElem? raw (rawImage cfg (.aggr size fields)) p idx (by omega) (by omega)
      rwa [hlen] at this

/-! ### The tuples of a typed value -/

theorem HasType_ofFields_length (cfg : Config) :
    ∀ (vs : List (Value ByteImage)) (Fs : List CType), HasType.ofFields cfg vs Fs →
      vs.length = Fs.length
  | [], [], _ => rfl
  | [], _ :: _, h => by simp [HasType.ofFields] at h
  | _ :: _, [], h => by simp [HasType.ofFields] at h
  | v :: vs, F :: Fs, h => by
    simp only [HasType.ofFields] at h
    simp [HasType_ofFields_length cfg vs Fs h.2]

theorem HasType_aggr_inv (cfg : Config) (x : Value ByteImage) (size : Nat)
    (fields : List CType) (h : HasType cfg x (.aggr size fields)) :
    ∃ vs, x = .aggr vs ∧ vs.length = fields.length := by
  cases x with
  | leaf image => simp [HasType] at h
  | aggr vs =>
    simp only [HasType] at h
    exact ⟨vs, rfl, HasType_ofFields_length cfg vs fields h⟩

theorem ToTuple_ofFields_eq_flatten {L : Type} (vs : List (Value L)) :
    ToTuple.ofFields vs = (vs.map ToTuple).flatten := by
  induction vs with
  | nil => simp [ToTuple.ofFields]
  | cons v vs ih => simp [ToTuple.ofFields, ih]

theorem ToTuple_length (cfg : Config) (x : Value ByteImage) (T : CType)
    (h : HasType cfg x T) : (ToTuple x).length = (LeafIdSequence T).length := by
  have h1 := congrArg List.length (HasType_widths cfg x T h)
  rw [LeafIdSequence_eq_map_leafKinds]
  simpa using h1

/-! ### Further facts used by the claims -/

theorem sizeof_pos_of_supported (cfg : Config) (F : CType) (hF : Supported cfg F) :
    1 ≤ sizeof cfg F := by
  induction hF with
  | prim p hp => exact hp
  | enum u hu => exact hu
  | aggr size fields _ hne _ hsum ih =>
    obtain ⟨G, Gs, rfl⟩ := List.exists_cons_of_ne_nil hne
    have := ih G (List.mem_cons_self _ _)
    rw [sumSizes_cons] at hsum
    simp only [sizeof]
    omega

theorem writeAt_ok_lt {data r : List Nat} {i v : Nat} (h : writeAt data i v = .ok r) :
    i < data.length := by
  unfold writeAt at h
  split at h
  · assumption
  · cases h

theorem offsets_of_supported (cfg : Config) (fields : List CType) :
    ∃ offs szs,
      temporary1 cfg fields (List.range fields.length) (SizeTArray.zeros fields.length)
        (SizeTArray.zeros fields.length) = .ok (offs, szs) ∧
      offs.length = fields.length ∧
      ∀ j, j < fields.length → offs[j]? = some (sumSizes cfg (fields.take j)) := by
  obtain ⟨offs2, szs2, h1, hlen, hoffs⟩ :=
    temporary1_spec cfg fields fields.length (Nat.le_refl _) fields 0
      (SizeTArray.zeros fields.length) (SizeTArray.zeros fields.length) (by simp)
      (by simp [SizeTArray.zeros]) (by simp [SizeTArray.zeros])
      (fun j hj => absurd hj (Nat.not_lt_zero j)) (fun j hj => absurd hj (Nat.not_lt_zero j))
  rw [← List.range_eq_range'] at h1
  exact ⟨offs2, szs2, h1, hlen, hoffs⟩

theorem getElem?_lt_length {α : Type} {l : List α} {i : Nat} {a : α} (h : l[i]? = some a) :
    i < l.length := by
  by_contra hc
  rw [List.getElem?_eq_none (by omega)] at h
  cases h

theorem LeafIdSequence_field_split (size : Nat) (fields : List CType) (i : Nat) (F : CType)
    (hF : fields[i]? = some F) :
    LeafIdSequence (.aggr size fields)
      = LeafIdSequence.ofFields (fields.take i) ++ LeafIdSequence F
          ++ LeafIdSequence.ofFields (fields.drop (i + 1)) := by
  have hsplit := fields_split hF
  rw [LeafIdSequence]
  conv_lhs => rw [hsplit]
  rw [LeafIdSequence_ofFields_append]
  simp [LeafIdSequence.ofFields]

theorem _GetTypeIds_Impl_supported (cfg : Config) (size : Nat) (fields : List CType)
    (hT : Supported cfg (.aggr size fields)) :
    _GetTypeIds_Impl cfg (.aggr size fields) (List.range fields.length)
      = .ok ((rawImage cfg (.aggr size fields)).filter isNonZero) := by
  have hlen := rawImage_length cfg _ hT
  simp only [sizeof] at hlen
  simp only [_GetTypeIds_Impl, _GetIdsRaw_Impl_supported cfg size fields hT, ok_bind, sizeof]
  have := ArrayToNonZeros_Run_spec (rawImage cfg (.aggr size fields))
  rw [hlen] at this
  exact this

theorem isNonZero_iff (v : Nat) : isNonZero v = true ↔ v ≠ 0 := by
  simp [isNonZero]

/-! ### More of the types of `test.cpp` -/

theorem test.supported_ThreeFieldsWithNestedStruct :
    Supported test.msvc test.ThreeFieldsWithNestedStruct := by
  refine Supported.aggr _ _ ?_ (by simp) (by decide) (by decide)
  intro F hF
  simp only [List.mem_cons, List.mem_singleton, List.not_mem_nil, or_false] at hF
  rcases hF with rfl | rfl | rfl
  · exact test.supported_prim _
  · exact test.supported_Nested
  · exact test.supported_prim _

theorem test.hasType_threeFieldsNested :
    HasType test.msvc test.threeFieldsNested test.ThreeFieldsWithNestedStruct := by
  simp [test.threeFieldsNested, test.ThreeFieldsWithNestedStruct, test.Nested, HasType,
    HasType.ofFields, test.msvc, test.msvcSizeof]

theorem test.wellFormed_NotPod : WellFormed test.msvc test.NotPod := by
  refine WellFormed.aggr _ _ ?_ (by simp) (by decide)
  intro F hF
  simp only [List.mem_cons, List.mem_singleton, List.not_mem_nil, or_false] at hF
  rcases hF with rfl | rfl | rfl
  · exact WellFormed.prim _ (test.msvcSizeof_pos .char)
  · exact WellFormed.other _
  · exact WellFormed.prim _ (test.msvcSizeof_pos .double)

theorem not_supported_other (cfg : Config) (n : Nat) : ¬ Supported cfg (.other n) := by
  intro h
  cases h

/-! ### The slice of a field, read from the raw array -/

theorem slice_of_split (raw before mid after : List Nat) (h : raw = before ++ mid ++ after) :
    (raw.drop before.length).take mid.length = mid := by
  subst h
  simp

theorem leafCount_take_le_sumSizes (cfg : Config) (size : Nat) (fields : List CType)
    (hT : Supported cfg (.aggr size fields)) (i : Nat) :
    leafCount.ofFields (fields.take i) ≤ sumSizes cfg (fields.take i) :=
  leafCount_ofFields_le cfg _ (fun G hG =>
    leafCount_le_sizeof cfg G (hT.of_mem (List.mem_of_mem_take hG)).wellFormed.wellSized)

/-! ### The recursion under a bound on its depth -/

theorem nestingDepth_le_ofFields :
    ∀ (Fs : List CType) (F : CType), F ∈ Fs → nestingDepth F ≤ nestingDepth.ofFields Fs := by
  intro Fs
  induction Fs with
  | nil => intro F hF; simp at hF
  | cons G Gs ih =>
    intro F hF
    simp only [nestingDepth.ofFields]
    rcases List.mem_cons.1 hF with rfl | hF2
    · exact Nat.le_max_left _ _
    · exact Nat.le_trans (ih F hF2) (Nat.le_max_right _ _)

theorem nestingDepth_field_lt (size : Nat) (fields : List CType) (F : CType) (hF : F ∈ fields) :
    nestingDepth F < nestingDepth (.aggr size fields) := by
  have := nestingDepth_le_ofFields fields F hF
  simp only [nestingDepth]
  omega

theorem _Cast_Impl_upTo_eq (byType : CType → Option (Except Failure (List Nat)))
    (cfg : Config) (T : CType)
    (h : is_registered_or_aliased T = false → byType T = some (_GetIdsByType cfg T))
    (idsRaw : List Nat) (pTypeIds : Nat) :
    _Cast_Impl_upTo byType cfg T idsRaw pTypeIds = some (_Cast_Impl cfg T idsRaw pTypeIds) := by
  rw [_Cast_Impl]
  unfold _Cast_Impl_upTo
  by_cases hreg : is_registered_or_aliased T = true
  · simp [hreg]
  · have hreg2 : is_registered_or_aliased T = false := by simpa using hreg
    simp only [hreg2, Bool.false_eq_true, if_false, h hreg2]
    cases _GetIdsByType cfg T <;> rfl

theorem temporary2_upTo_eq
    (cast : CType → List Nat → Nat → Option (Except Failure (List Nat))) (cfg : Config) :
    ∀ (fields : List CType),
      (∀ F ∈ fields, ∀ (idsRaw : List Nat) (p : Nat),
        cast F idsRaw p = some (_Cast_Impl cfg F idsRaw p)) →
      ∀ (Idxs offsets idsRaw : List Nat),
        temporary2_upTo cast fields Idxs offsets idsRaw
          = some (temporary2 cfg fields Idxs offsets idsRaw) := by
  intro fields
  induction fields with
  | nil =>
    intro _ Idxs offsets idsRaw
    cases Idxs with
    | nil => rw [temporary2]; rfl
    | cons Idx Idxs => rw [temporary2]; rfl
  | cons F Fs ih =>
    intro hcast Idxs offsets idsRaw
    cases Idxs with
    | nil => rw [temporary2]; rfl
    | cons Idx Idxs =>
      rw [temporary2]
      simp only [temporary2_upTo]
      cases hread : readAt offsets Idx with
      | error e => rfl
      | ok p =>
        simp only [ok_bind, hcast F (List.mem_cons_self _ _)]
        cases hc : _Cast_Impl cfg F idsRaw p with
        | error e => rfl
        | ok raw2 =>
          simp only [ok_bind]
          exact ih (fun G hG => hcast G (List.mem_cons_of_mem _ hG)) Idxs offsets raw2

theorem _GetIdsRaw_Impl_upTo_eq
    (cast : CType → List Nat → Nat → Option (Except Failure (List Nat))) (cfg : Config)
    (T : CType)
    (hcast : ∀ size fields, T = .aggr size fields → ∀ F ∈ fields,
      ∀ (idsRaw : List Nat) (p : Nat), cast F idsRaw p = some (_Cast_Impl cfg F idsRaw p))
    (Idxs : List Nat) :
    _GetIdsRaw_Impl_upTo cast cfg T Idxs = some (_GetIdsRaw_Impl cfg T Idxs) := by
  cases T with
  | aggr size fields =>
    rw [_GetIdsRaw_Impl]
    simp only [_GetIdsRaw_Impl_upTo]
    cases ht : temporary1 cfg fields Idxs (SizeTArray.zeros Idxs.length)
        (SizeTArray.zeros Idxs.length) with
    | error e => rfl
    | ok st =>
      simp only [ok_bind]
      exact temporary2_upTo_eq cast cfg fields (hcast size fields rfl) Idxs st.1 _
  | prim p =>
    rw [_GetIdsRaw_Impl]
    · rfl
    · intro _ _ h
      cases h
  | enum u =>
    rw [_GetIdsRaw_Impl]
    · rfl
    · intro _ _ h
      cases h
  | other n =>
    rw [_GetIdsRaw_Impl]
    · rfl
    · intro _ _ h
      cases h

theorem _GetIdsByType_upTo_eq (cfg : Config) :
    ∀ (bound : Nat) (T : CType), nestingDepth T < bound →
      _GetIdsByType_upTo cfg bound T = some (_GetIdsByType cfg T) := by
  intro bound
  induction bound with
  | zero => intro T h; omega
  | succ bound ih =>
    intro T hT
    rw [_GetIdsByType]
    simp only [_GetIdsByType_upTo]
    by_cases hsup : is_supported_type T = true
    · simp only [hsup, if_true]
      cases hN : GetFieldsCount cfg T with
      | error e => rfl
      | ok N =>
        simp only [ok_bind]
        apply _GetIdsRaw_Impl_upTo_eq
        intro size fields hTeq F hF idsRaw p
        subst hTeq
        apply _Cast_Impl_upTo_eq
        intro _
        have := nestingDepth_field_lt size fields F hF
        exact ih F (by omega)
    · simp [hsup]

/-! ### The copy of a nested raw array -/

theorem getElem?_of_split (raw before mid after : List Nat) (h : raw = before ++ mid ++ after)
    (k : Nat) (hk : k < mid.length) : raw[before.length + k]? = mid[k]? := by
  subst h
  rw [List.append_assoc, List.getElem?_append_right (by omega)]
  simp only [Nat.add_sub_cancel_left]
  exact List.getElem?_append_left hk

theorem _Cast_Impl_nested_copy (cfg : Config) (s : Nat) (fs : List CType)
    (hF : Supported cfg (.aggr s fs)) (idsRaw : List Nat) (q : Nat)
    (hq : q + s ≤ idsRaw.length) :
    _Cast_Impl cfg (.aggr s fs) idsRaw q
      = .ok (idsRaw.take q ++ rawImage cfg (.aggr s fs) ++ idsRaw.drop (q + s)) := by
  have hby := (flatten_main cfg _ hF).2 rfl
  have hlen := rawImage_length cfg _ hF
  simp only [sizeof] at hlen
  have hsteps := AssignArray_steps idsRaw (rawImage cfg (.aggr s fs)) q s (by omega) hq
  have htake : List.take s (rawImage cfg (.aggr s fs)) = rawImage cfg (.aggr s fs) :=
    List.take_of_length_le (by omega)
  rw [htake] at hsteps
  rw [_Cast_Impl_aggr, hby, ok_bind]
  exact hsteps

/-- The two structs with a pointer member are laid out as C++ lays out objects. -/
theorem test.supported_WithVoidPointer : Supported test.msvc test.WithVoidPointer := by
  refine Supported.aggr _ _ ?_ (by simp) (by decide) (by decide)
  intro F hF
  simp only [List.mem_cons, List.mem_singleton, List.not_mem_nil, or_false] at hF
  rcases hF with rfl | rfl <;> exact test.supported_prim _

theorem test.wellFormed_WithIntPointer : WellFormed test.msvc test.WithIntPointer := by
  refine WellFormed.aggr _ _ ?_ (by simp) (by decide)
  intro F hF
  simp only [List.mem_cons, List.mem_singleton, List.not_mem_nil, or_false] at hF
  rcases hF with rfl | rfl
  · exact WellFormed.prim _ (test.msvcSizeof_pos .int)
  · exact WellFormed.other _

/-! # The claims -/

/-- C1: for every supported aggregate type `T`, of any nesting depth, `GetTypeIds<T>()`
returns the reference depth-first flattening of `T`: the concatenation, over the
top-level fields in declaration order, of the flattenings of the fields, where the
flattening of a nested aggregate field `F` is what `GetTypeIds<F>()` returns; its length
is the total leaf count of `T` and its entries are the ids of the depth-first leaves. -/
theorem C1_GetTypeIds_is_reference_flattening (cfg : Config) (size : Nat)
    (fields : List CType) (hT : Supported cfg (.aggr size fields)) :
    GetTypeIds cfg (.aggr size fields) = .ok (LeafIdSequence (.aggr size fields)) ∧
    LeafIdSequence (.aggr size fields) = (fields.map LeafIdSequence).flatten ∧
    (∀ F ∈ fields, is_supported_type F = true → GetTypeIds cfg F = .ok (LeafIdSequence F)) ∧
    (LeafIdSequence (.aggr size fields)).length = leafCount (.aggr size fields) ∧
    LeafIdSequence (.aggr size fields) = (leafKinds (.aggr size fields)).map _GetIdByType :=
  ⟨GetTypeIds_supported cfg size fields hT,
   by rw [LeafIdSequence, LeafIdSequence_ofFields_eq_flatten],
   fun F hF hagg => GetTypeIds_supported_field cfg F (hT.of_mem hF) hagg,
   LeafIdSequence_length _,
   LeafIdSequence_eq_map_leafKinds _⟩

/-- Witness of C1: the struct `TwoFieldsTwoLevelsOfNestedStructs` of `test.cpp`. -/
theorem C1_witness :
    Supported test.msvc test.TwoFieldsTwoLevelsOfNestedStructs ∧
    GetTypeIds test.msvc test.TwoFieldsTwoLevelsOfNestedStructs = .ok [10, 11, 8, 11] :=
  ⟨test.supported_TwoLevels,
   (C1_GetTypeIds_is_reference_flattening test.msvc 24 _ test.supported_TwoLevels).1⟩

/-- C2: in a supported aggregate, a field whose type is an enumeration contributes exactly
one entry to `GetTypeIds<T>()`, the registry id of the underlying type of the enumeration,
which is the id of a registered fundamental type (between 1 and 23); the conversion to an
enumeration type assigns that id and nothing else. -/
theorem C2_enum_field_has_underlying_id (cfg : Config) (size : Nat) (before after : List CType)
    (underlying : Prim) (hT : Supported cfg (.aggr size (before ++ .enum underlying :: after))) :
    GetTypeIds cfg (.aggr size (before ++ .enum underlying :: after))
      = .ok (LeafIdSequence.ofFields before ++ [_GetIdByType underlying]
              ++ LeafIdSequence.ofFields after) ∧
    _GetTypeById (_GetIdByType underlying) = some underlying ∧
    (1 ≤ _GetIdByType underlying ∧ _GetIdByType underlying ≤ 23) ∧
    ∀ (idsRaw : List Nat) (pTypeIds : Nat),
      _Cast_Impl cfg (.enum underlying) idsRaw pTypeIds
        = Assign idsRaw pTypeIds (_GetIdByType underlying) := by
  refine ⟨?_, _GetTypeById_GetIdByType _, ⟨_GetIdByType_pos _, _GetIdByType_le _⟩,
    fun idsRaw p => _Cast_Impl_enum cfg underlying idsRaw p⟩
  rw [GetTypeIds_supported cfg _ _ hT]
  simp [LeafIdSequence, LeafIdSequence_ofFields_append, LeafIdSequence.ofFields]

/-- Witness of C2: the struct `ThreeFieldsWithEnum` of `test.cpp`, whose second field is an
enumeration over `unsigned long long`. -/
theorem C2_witness :
    Supported test.msvc test.ThreeFieldsWithEnum ∧
    GetTypeIds test.msvc test.ThreeFieldsWithEnum = .ok [11, 5, 8] :=
  ⟨test.supported_ThreeFieldsWithEnum,
   (C2_enum_field_has_underlying_id test.msvc 24 [.prim .char] [.enum .int] .unsigned_long_long
      test.supported_ThreeFieldsWithEnum).1⟩

/-- C3: for an aggregate all of whose `N ≥ 1` top-level fields are registered fundamental
types, `GetTypeIds<T>()` has exactly `N` entries and entry `i` is the registry id of the
`i`-th declared field, whatever the sizes of the fields and the padding (the size of the
aggregate beyond the sum of the sizes of its fields). -/
theorem C3_primitive_fields (cfg : Config) (size : Nat) (ps : List Prim)
    (hsizes : ∀ p ∈ ps, 1 ≤ cfg.sizeofPrim p) (hne : ps ≠ [])
    (hmax : ps.length ≤ cfg.MAX_FIELDS) (hsize : sumSizes cfg (ps.map CType.prim) ≤ size) :
    ∃ ids, GetTypeIds cfg (.aggr size (ps.map CType.prim)) = .ok ids ∧
      ids = ps.map _GetIdByType ∧ ids.length = ps.length ∧
      ∀ i, i < ps.length → ids[i]? = ps[i]?.map _GetIdByType := by
  have hT : Supported cfg (.aggr size (ps.map CType.prim)) := by
    refine Supported.aggr _ _ ?_ (by simpa using hne) (by simpa using hmax) hsize
    intro F hF
    obtain ⟨p, hp, rfl⟩ := List.mem_map.1 hF
    exact Supported.prim p (hsizes p hp)
  refine ⟨ps.map _GetIdByType, ?_, rfl, by simp, fun i _ => by simp⟩
  rw [GetTypeIds_supported cfg _ _ hT, LeafIdSequence, LeafIdSequence_ofFields_prims]

/-- Witness of C3: the struct `TwoFields { char; int; }` gives size 2 and entries `[11, 8]`. -/
theorem C3_witness :
    ∃ ids, GetTypeIds test.msvc test.TwoFields = .ok ids ∧
      ids = [11, 8] ∧ ids.length = 2 ∧
      ∀ i, i < 2 → ids[i]? = [Prim.char, Prim.int][i]?.map _GetIdByType :=
  C3_primitive_fields test.msvc 8 [.char, .int] (fun p _ => test.msvcSizeof_pos p)
    (by simp) (by decide) (by decide)

/-- C4: for `T = {double, Nested{int, char}, char}` with `sizeof(double) = 8`,
`sizeof(int) = 4`, `sizeof(char) = 1`, `sizeof(Nested) = 8` and `sizeof(T) = 24` (and a field
counter that reaches three fields), `GetTypeIds<T>()` has size 4 and its entries are exactly
`[16, 8, 11, 11]`. -/
theorem C4_ThreeFieldsWithNestedStruct (cfg : Config) (hdouble : cfg.sizeofPrim .double = 8)
    (hint : cfg.sizeofPrim .int = 4) (hchar : cfg.sizeofPrim .char = 1)
    (hmax : 3 ≤ cfg.MAX_FIELDS) :
    ∃ ids, GetTypeIds cfg (.aggr 24 [.prim .double, .aggr 8 [.prim .int, .prim .char],
        .prim .char]) = .ok ids ∧ ids.length = 4 ∧ ids = [16, 8, 11, 11] := by
  have hN : Supported cfg (.aggr 8 [.prim .int, .prim .char]) := by
    refine Supported.aggr _ _ ?_ (by simp) (by simp; omega)
      (by simp [sumSizes, sizeof, hint, hchar])
    intro F hF
    simp only [List.mem_cons, List.mem_singleton, List.not_mem_nil, or_false] at hF
    rcases hF with rfl | rfl
    · exact Supported.prim _ (by omega)
    · exact Supported.prim _ (by omega)
  have hT : Supported cfg (.aggr 24 [.prim .double, .aggr 8 [.prim .int, .prim .char],
      .prim .char]) := by
    refine Supported.aggr _ _ ?_ (by simp) (by simp; omega)
      (by simp [sumSizes, sizeof, hdouble, hchar])
    intro F hF
    simp only [List.mem_cons, List.mem_singleton, List.not_mem_nil, or_false] at hF
    rcases hF with rfl | rfl | rfl
    · exact Supported.prim _ (by omega)
    · exact hN
    · exact Supported.prim _ (by omega)
  exact ⟨_, GetTypeIds_supported cfg _ _ hT, rfl, rfl⟩

/-- Witness of C4: the sizes of MSVC x64. -/
theorem C4_witness :
    ∃ ids, GetTypeIds test.msvc test.ThreeFieldsWithNestedStruct = .ok ids ∧
      ids.length = 4 ∧ ids = [16, 8, 11, 11] :=
  C4_ThreeFieldsWithNestedStruct test.msvc rfl rfl rfl (by decide)

/-- C5: the registry is injective: two distinct registered fundamental types have
different ids. -/
theorem C5_registry_injective (k1 k2 : Prim) (h : k1 ≠ k2) :
    _GetIdByType k1 ≠ _GetIdByType k2 :=
  fun heq => h (_GetIdByType_inj heq)

/-- Witness of C5: `char` and `int`. -/
theorem C5_witness : _GetIdByType .char ≠ _GetIdByType .int :=
  C5_registry_injective .char .int (by decide)

/-- C6: every id of the registry is positive, no registered type has id `0`, and the
assigned ids are exactly `1, ..., 23`: the 23 registered types have, in registration
order, the ids `1` to `23`. -/
theorem C6_registry_ids_are_1_to_23 :
    (∀ k : Prim, 1 ≤ _GetIdByType k ∧ _GetIdByType k ≠ 0) ∧
    (∀ i : Nat, (∃ k : Prim, _GetIdByType k = i) ↔ (1 ≤ i ∧ i ≤ 23)) ∧
    (∀ k : Prim, k ∈ Prim.all) ∧
    Prim.all.map _GetIdByType = List.range' 1 23 := by
  refine ⟨fun k => ⟨_GetIdByType_pos k, _GetIdByType_ne_zero k⟩, ?_, Prim.mem_all, by decide⟩
  intro i
  constructor
  · rintro ⟨k, rfl⟩
    exact ⟨_GetIdByType_pos k, _GetIdByType_le k⟩
  · rintro ⟨h1, h2⟩
    obtain ⟨k, _, hk⟩ := _GetTypeById_some_of_range i h1 h2
    exact ⟨k, hk⟩

/-- C7: `_GetIdByType` and `_GetTypeById` are mutually inverse: looking up the id of a
registered type gives that type back, and for every id from 1 to 23 the id of the type
looked up is that id. -/
theorem C7_lookup_reverse_lookup_inverse (k : Prim) (i : Nat) (h1 : 1 ≤ i) (h23 : i ≤ 23) :
    _GetTypeById (_GetIdByType k) = some k ∧
    ∃ k2, _GetTypeById i = some k2 ∧ _GetIdByType k2 = i :=
  ⟨_GetTypeById_GetIdByType k, _GetTypeById_some_of_range i h1 h23⟩

/-- Witness of C7: the type `double` and the id `16`. -/
theorem C7_witness :
    _GetTypeById (_GetIdByType .double) = some .double ∧
    ∃ k2, _GetTypeById 16 = some k2 ∧ _GetIdByType k2 = 16 :=
  C7_lookup_reverse_lookup_inverse .double 16 (by decide) (by decide)

/-- C8: binary round trip. For every supported aggregate type `T` (all its leaves are
fixed-width: registered fundamental types and enumerations), every value `x` of `T` and
every prior value `y` of `T`, `Serialize` of `x` into an empty buffer succeeds, and
`Deserialize` of that buffer into `y` succeeds, consumes the buffer and leaves `y` equal
to `x`, leaf for leaf. -/
theorem C8_binary_round_trip (cfg : Config) (size : Nat) (fields : List CType)
    (hT : Supported cfg (.aggr size fields)) (x y : Value ByteImage)
    (hx : HasType cfg x (.aggr size fields)) (hy : HasType cfg y (.aggr size fields)) :
    ∃ buffer, BinarySerializer.Serialize cfg (.aggr size fields) x [] = .ok buffer ∧
      ∃ loaded, BinarySerializer.Deserialize cfg (.aggr size fields) y buffer = .ok (loaded, []) ∧
        loaded = x ∧ ToTuple loaded = ToTuple x :=
  ⟨_, (binary_round_trip cfg size fields hT x y hx hy).1,
    x, (binary_round_trip cfg size fields hT x y hx hy).2, rfl, rfl⟩

/-- Witness of C8: the objects of the test `Serialization.BinaryContainsEnum`. -/
theorem C8_witness :
    Supported test.msvc test.ThreeFieldsWithEnum ∧
    HasType test.msvc test.originalWithEnum test.ThreeFieldsWithEnum ∧
    HasType test.msvc test.loadedWithEnum test.ThreeFieldsWithEnum ∧
    ∃ buffer, BinarySerializer.Serialize test.msvc test.ThreeFieldsWithEnum
        test.originalWithEnum [] = .ok buffer ∧
      ∃ loaded, BinarySerializer.Deserialize test.msvc test.ThreeFieldsWithEnum
          test.loadedWithEnum buffer = .ok (loaded, []) ∧
        loaded = test.originalWithEnum ∧ ToTuple loaded = ToTuple test.originalWithEnum :=
  ⟨test.supported_ThreeFieldsWithEnum, test.hasType_originalWithEnum,
    test.hasType_loadedWithEnum,
    C8_binary_round_trip test.msvc 24 _ test.supported_ThreeFieldsWithEnum
      test.originalWithEnum test.loadedWithEnum test.hasType_originalWithEnum
      test.hasType_loadedWithEnum⟩

/-- C9: text round trip. For every aggregate value `x` (nested aggregates, integers,
finite floating-point numbers, characters and character sequences of any length and
content, blanks and newlines included) and every other value `y` of the same type,
`Deserialize` into `y` of what `Serialize` of `x` wrote into an empty buffer succeeds,
consumes the buffer and reconstructs every leaf of `x`; every single token, that of a
floating-point number included, is read back in front of any continuation of the
buffer. -/
theorem C9_text_round_trip (x y : Value TextLeaf) (h : SameType x y) :
    (∃ loaded, StringStreamSerializer.Deserialize y (StringStreamSerializer.Serialize x [])
        = .ok (loaded, []) ∧ loaded = x ∧ ToTuple loaded = ToTuple x) ∧
    ∀ (leaf : TextLeaf) (rest : StringStreamBuffer),
      decodeLeaf leaf.kind (encodeLeaf leaf ++ rest) = some (leaf, rest) :=
  ⟨⟨x, text_round_trip x y h, rfl, rfl⟩, decodeLeaf_encodeLeaf⟩

/-- Witness of C9: the objects of the tests `Serialization.StringStreamNotPod` (a
character sequence with a newline and a blank, and the `double` `3.14`) and
`Serialization.NestedStruct` (a nested aggregate). -/
theorem C9_witness :
    SameType test.originalNotPod test.loadedNotPod ∧
    (∃ loaded, StringStreamSerializer.Deserialize test.loadedNotPod
        (StringStreamSerializer.Serialize test.originalNotPod []) = .ok (loaded, []) ∧
      loaded = test.originalNotPod ∧ ToTuple loaded = ToTuple test.originalNotPod) ∧
    SameType test.originalNestedStruct test.loadedNestedStruct ∧
    (∃ loaded, StringStreamSerializer.Deserialize test.loadedNestedStruct
        (StringStreamSerializer.Serialize test.originalNestedStruct []) = .ok (loaded, []) ∧
      loaded = test.originalNestedStruct ∧
      ToTuple loaded = ToTuple test.originalNestedStruct) :=
  ⟨test.sameType_NotPod, (C9_text_round_trip _ _ test.sameType_NotPod).1,
    test.sameType_NestedStruct, (C9_text_round_trip _ _ test.sameType_NestedStruct).1⟩

/-- C10: for every aggregate type with at most `MAX_FIELDS` members, `GetFieldsCount<T>()`
and the overload `GetFieldsCount( x )` return the number of top-level members declared in
`T`: each member counts once, whether it is a fundamental type, an enumeration or a nested
aggregate, whatever the number of leaves of the nested aggregate. -/
theorem C10_GetFieldsCount_is_member_count {Obj : Type} (cfg : Config) (size : Nat)
    (fields : List CType) (obj : Obj) (hmax : fields.length ≤ cfg.MAX_FIELDS) :
    GetFieldsCount cfg (.aggr size fields) = .ok fields.length ∧
    GetFieldsCountOf cfg (.aggr size fields) obj = .ok fields.length :=
  ⟨GetFieldsCount_aggr cfg size fields hmax, GetFieldsCount_aggr cfg size fields hmax⟩

/-- Witness of C10: `ThreeFieldsWithNestedStruct` has three fields (and four leaves). -/
theorem C10_witness :
    GetFieldsCount test.msvc test.ThreeFieldsWithNestedStruct = .ok 3 ∧
    GetFieldsCountOf test.msvc test.ThreeFieldsWithNestedStruct test.threeFieldsNested = .ok 3 :=
  C10_GetFieldsCount_is_member_count test.msvc 24
    [.prim .double, test.Nested, .prim .char] test.threeFieldsNested (by decide)

/-- C11: for every value `x` of a supported aggregate type `T`, `ToTuplePrecise( x )` has
exactly `GetFieldsCount<T>()` elements, the member values themselves (a nested aggregate is
one element); `ToTuple( x )` has as many elements as `GetTypeIds<T>()`; and the
concatenation, in order, of the `ToTuple` of every element of `ToTuplePrecise( x )` is
`ToTuple( x )`. -/
theorem C11_shallow_and_leaf_tuples (cfg : Config) (size : Nat) (fields : List CType)
    (hT : Supported cfg (.aggr size fields)) (x : Value ByteImage)
    (hx : HasType cfg x (.aggr size fields)) :
    ∃ shallow ids,
      ToTuplePrecise x = .ok shallow ∧ x = .aggr shallow ∧
      GetFieldsCount cfg (.aggr size fields) = .ok shallow.length ∧
      GetTypeIds cfg (.aggr size fields) = .ok ids ∧
      (ToTuple x).length = ids.length ∧
      (shallow.map ToTuple).flatten = ToTuple x := by
  obtain ⟨vs, rfl, hlen⟩ := HasType_aggr_inv cfg x size fields hx
  have hmax : fields.length ≤ cfg.MAX_FIELDS := by
    cases hT with
    | aggr _ _ _ _ hmax _ => exact hmax
  refine ⟨vs, _, rfl, rfl, ?_, GetTypeIds_supported cfg size fields hT,
    ToTuple_length cfg _ _ hx, ?_⟩
  · rw [hlen]
    exact GetFieldsCount_aggr cfg size fields hmax
  · rw [ToTuple, ToTuple_ofFields_eq_flatten]

/-- Witness of C11: an object of the struct `ThreeFieldsWithNestedStruct`: three elements
in the shallow tuple, four in the leaf tuple. -/
theorem C11_witness :
    Supported test.msvc test.ThreeFieldsWithNestedStruct ∧
    HasType test.msvc test.threeFieldsNested test.ThreeFieldsWithNestedStruct ∧
    ∃ shallow ids,
      ToTuplePrecise test.threeFieldsNested = .ok shallow ∧
      test.threeFieldsNested = .aggr shallow ∧
      GetFieldsCount test.msvc test.ThreeFieldsWithNestedStruct = .ok shallow.length ∧
      GetTypeIds test.msvc test.ThreeFieldsWithNestedStruct = .ok ids ∧
      (ToTuple test.threeFieldsNested).length = ids.length ∧
      (shallow.map ToTuple).flatten = ToTuple test.threeFieldsNested :=
  ⟨test.supported_ThreeFieldsWithNestedStruct, test.hasType_threeFieldsNested,
    C11_shallow_and_leaf_tuples test.msvc 24 _ test.supported_ThreeFieldsWithNestedStruct
      test.threeFieldsNested test.hasType_threeFieldsNested⟩

/-- C12: for an aggregate `T` that the field counter handles and that is laid out as C++
lays out objects, `GetTypeIds<T>()` fails with `UnsupportedType` if and only if some field
of `T` is not supported, that is neither a registered fundamental type, nor an
enumeration, nor a supported aggregate (one whose own fields are all supported); such a
field is a type of another kind or an aggregate that is not supported.  On such a failure
no id sequence is returned, and without such a field the whole sequence is returned. -/
theorem C12_fails_iff_unsupported_leaf (cfg : Config) (size : Nat) (fields : List CType)
    (hwf : WellFormed cfg (.aggr size fields)) (hmax : fields.length ≤ cfg.MAX_FIELDS) :
    (GetTypeIds cfg (.aggr size fields) = .error .UnsupportedType ↔
      ∃ F ∈ fields, ¬ Supported cfg F) ∧
    (∀ F ∈ fields, ¬ Supported cfg F →
      (∃ n, F = .other n) ∨ ∃ s fs, F = .aggr s fs ∧ ¬ Supported cfg (.aggr s fs)) ∧
    ((∃ F ∈ fields, ¬ Supported cfg F) →
      ∀ ids, GetTypeIds cfg (.aggr size fields) ≠ .ok ids) ∧
    ((∀ F ∈ fields, Supported cfg F) →
      GetTypeIds cfg (.aggr size fields) = .ok (LeafIdSequence (.aggr size fields))) := by
  have hne : fields ≠ [] := by
    cases hwf with
    | aggr _ _ _ hne _ => exact hne
  have hsum : sumSizes cfg fields ≤ size := by
    cases hwf with
    | aggr _ _ _ _ hsum => exact hsum
  have hfields : ∀ F ∈ fields, WellFormed cfg F := by
    cases hwf with
    | aggr _ _ hfields _ _ => exact hfields
  have hfail : (∃ F ∈ fields, ¬ Supported cfg F) →
      GetTypeIds cfg (.aggr size fields) = .error .UnsupportedType := by
    rintro ⟨F, hF, hnF⟩
    exact GetTypeIds_unsupported cfg size fields hwf (fun hS => hnF (hS.of_mem hF))
  have hok : (∀ F ∈ fields, Supported cfg F) →
      GetTypeIds cfg (.aggr size fields) = .ok (LeafIdSequence (.aggr size fields)) :=
    fun hall => GetTypeIds_supported cfg size fields (Supported.aggr size fields hall hne hmax hsum)
  refine ⟨⟨?_, hfail⟩, ?_, ?_, hok⟩
  · intro herr
    by_contra hcon
    have hall : ∀ F ∈ fields, Supported cfg F := by
      intro F hF
      by_contra hF2
      exact hcon ⟨F, hF, hF2⟩
    rw [hok hall] at herr
    cases herr
  · intro F hF hnF
    have hwF := hfields F hF
    cases hwF with
    | prim p hp => exact absurd (Supported.prim p hp) hnF
    | enum u hu => exact absurd (Supported.enum u hu) hnF
    | other n => exact Or.inl ⟨n, rfl⟩
    | aggr s fs _ _ _ => exact Or.inr ⟨s, fs, rfl, hnF⟩
  · intro hex ids hids
    rw [hfail hex] at hids
    cases hids

/-- Witness of C12: the struct `NotPod { char; std::string; double; }` of `test.cpp`. -/
theorem C12_witness :
    WellFormed test.msvc test.NotPod ∧
    GetTypeIds test.msvc test.NotPod = .error .UnsupportedType :=
  ⟨test.wellFormed_NotPod,
    (C12_fails_iff_unsupported_leaf test.msvc 48 _ test.wellFormed_NotPod (by decide)).1.2
      ⟨.other 32, by simp, not_supported_other _ _⟩⟩

/-- C13: the two overloads of `GetTypeIds` agree and the result depends on the type only:
for every type `T` and every two objects `x`, `y`, `GetTypeIds( x )`, `GetTypeIds( y )` and
`GetTypeIds<T>()` are the same. -/
theorem C13_overloads_agree {Obj : Type} (cfg : Config) (T : CType) (x y : Obj) :
    GetTypeIdsOf cfg T x = GetTypeIdsOf cfg T y ∧
    GetTypeIdsOf cfg T y = GetTypeIds cfg T :=
  ⟨rfl, rfl⟩

/-- C14: compaction. For every supported aggregate `T`, `_GetTypeIds_Impl<T>` returns
exactly the entries of the raw array of `_GetIdsRaw_Impl<T>` that are not `0`, in their
order in the raw array; its length is the number of the non-zero raw entries and it holds
no `0`. -/
theorem C14_compaction (cfg : Config) (size : Nat) (fields : List CType)
    (hT : Supported cfg (.aggr size fields)) :
    ∃ idsRaw ids,
      _GetIdsRaw_Impl cfg (.aggr size fields) (List.range fields.length) = .ok idsRaw ∧
      _GetTypeIds_Impl cfg (.aggr size fields) (List.range fields.length) = .ok ids ∧
      ids = idsRaw.filter isNonZero ∧
      ids.Sublist idsRaw ∧
      ids.length = CountNonZeros idsRaw ∧
      ids.length = idsRaw.countP (fun v => decide (v ≠ 0)) ∧
      ∀ v ∈ ids, v ≠ 0 := by
  refine ⟨rawImage cfg (.aggr size fields), _, _GetIdsRaw_Impl_supported cfg size fields hT,
    _GetTypeIds_Impl_supported cfg size fields hT, rfl, List.filter_sublist _,
    (CountNonZeros_eq _).symm, ?_, ?_⟩
  · rw [List.countP_eq_length_filter]
    rfl
  · intro v hv
    exact (isNonZero_iff v).1 (List.mem_filter.1 hv).2

/-- Witness of C14: the struct `Nested { int; char; }`: the raw array
`[8, 0, 0, 0, 11, 0, 0, 0]` is compacted to `[8, 11]`. -/
theorem C14_witness :
    Supported test.msvc test.Nested ∧
    ∃ idsRaw ids,
      _GetIdsRaw_Impl test.msvc test.Nested (List.range 2) = .ok idsRaw ∧
      _GetTypeIds_Impl test.msvc test.Nested (List.range 2) = .ok ids ∧
      ids = idsRaw.filter isNonZero ∧
      ids.Sublist idsRaw ∧
      ids.length = CountNonZeros idsRaw ∧
      ids.length = idsRaw.countP (fun v => decide (v ≠ 0)) ∧
      ∀ v ∈ ids, v ≠ 0 :=
  ⟨test.supported_Nested, C14_compaction test.msvc 8 _ test.supported_Nested⟩

/-- C15: for every type whose fundamental types and enumerations have size at least `1`
and whose aggregates, at every depth, have a size of at least the sum of the sizes of
their fields, the total leaf count is at most `sizeof`: the raw array of `sizeof( T )`
entries has room for one id per leaf. -/
theorem C15_leafCount_le_sizeof (cfg : Config) (T : CType) (h : WellSized cfg T) :
    leafCount T ≤ sizeof cfg T ∧
    leafCount T ≤ (SizeTArray.zeros (sizeof cfg T)).length := by
  have := leafCount_le_sizeof cfg T h
  exact ⟨this, by simpa [SizeTArray.zeros] using this⟩

/-- Witness of C15: `ThreeFieldsWithNestedStruct` has 4 leaves and size 24. -/
theorem C15_witness :
    WellSized test.msvc test.ThreeFieldsWithNestedStruct ∧
    leafCount test.ThreeFieldsWithNestedStruct ≤ sizeof test.msvc test.ThreeFieldsWithNestedStruct ∧
    leafCount test.ThreeFieldsWithNestedStruct
      ≤ (SizeTArray.zeros (sizeof test.msvc test.ThreeFieldsWithNestedStruct)).length :=
  ⟨test.supported_ThreeFieldsWithNestedStruct.wellFormed.wellSized,
    C15_leafCount_le_sizeof test.msvc _
      test.supported_ThreeFieldsWithNestedStruct.wellFormed.wellSized⟩

/-- C16, as stated, fails: in `Nested { int; char; }` the id of the field `1` is written at
the offset `4` of the raw array, the size of the field `0`, while the sum of the leaf
counts of the fields before it is `1`; the raw entry `1` stays `0`. -/
theorem C16_counterexample :
    Supported test.msvc test.Nested ∧
    temporary1 test.msvc [.prim .int, .prim .char] (List.range 2) (SizeTArray.zeros 2)
      (SizeTArray.zeros 2) = .ok ([0, 4], [4, 1]) ∧
    _GetIdsRaw_Impl test.msvc test.Nested (List.range 2) = .ok [8, 0, 0, 0, 11, 0, 0, 0] ∧
    leafCount.ofFields ([CType.prim .int, CType.prim .char].take 1) = 1 ∧
    ¬ (∀ offs szs,
        temporary1 test.msvc [.prim .int, .prim .char] (List.range 2) (SizeTArray.zeros 2)
          (SizeTArray.zeros 2) = .ok (offs, szs) →
        ∀ i, i < 2 →
          offs[i]? = some (leafCount.ofFields ([CType.prim .int, CType.prim .char].take i))) := by
  have h1 : temporary1 test.msvc [.prim .int, .prim .char] (List.range 2) (SizeTArray.zeros 2)
      (SizeTArray.zeros 2) = .ok ([0, 4], [4, 1]) := rfl
  refine ⟨test.supported_Nested, h1, _GetIdsRaw_Impl_supported test.msvc 8 _ test.supported_Nested,
    rfl, ?_⟩
  intro hall
  have h2 := hall _ _ h1 1 (by decide)
  simp [leafCount.ofFields, leafCount] at h2

/-- C16, amended: for every supported aggregate `T` and every top-level field index `i`,
the offset in the raw array at which the ids of the field `i` are written is the sum of
the sizes (`sizeof`) of the fields `0..i-1`, which is at least the sum of their leaf
counts; the sum of the leaf counts of the fields `0..i-1` is the position at which the ids
of the field `i` start in the result of `GetTypeIds<T>()`. -/
theorem C16_offset_is_sum_of_sizes (cfg : Config) (size : Nat) (fields : List CType)
    (hT : Supported cfg (.aggr size fields)) (i : Nat) (F : CType) (hF : fields[i]? = some F) :
    (∃ offs szs,
      temporary1 cfg fields (List.range fields.length) (SizeTArray.zeros fields.length)
        (SizeTArray.zeros fields.length) = .ok (offs, szs) ∧
      offs[i]? = some (sumSizes cfg (fields.take i))) ∧
    (∃ before after,
      _GetIdsRaw_Impl cfg (.aggr size fields) (List.range fields.length)
        = .ok (before ++ rawImage cfg F ++ after) ∧
      before.length = sumSizes cfg (fields.take i)) ∧
    leafCount.ofFields (fields.take i) ≤ sumSizes cfg (fields.take i) ∧
    (∃ front back,
      GetTypeIds cfg (.aggr size fields) = .ok (front ++ LeafIdSequence F ++ back) ∧
      front.length = leafCount.ofFields (fields.take i)) := by
  obtain ⟨offs, szs, h1, _, hoffs⟩ := offsets_of_supported cfg fields
  obtain ⟨before, after, hraw, hlen, _⟩ := rawImage_field_slice cfg size fields hT i F hF
  refine ⟨⟨offs, szs, h1, hoffs i (getElem?_lt_length hF)⟩, ⟨before, after, ?_, hlen⟩,
    leafCount_take_le_sumSizes cfg size fields hT i,
    ⟨LeafIdSequence.ofFields (fields.take i), LeafIdSequence.ofFields (fields.drop (i + 1)),
      ?_, LeafIdSequence_ofFields_length _⟩⟩
  · rw [← hraw]
    exact _GetIdsRaw_Impl_supported cfg size fields hT
  · rw [← LeafIdSequence_field_split size fields i F hF]
    exact GetTypeIds_supported cfg size fields hT

/-- Witness of the amended C16: the field `1` of `ThreeFieldsWithNestedStruct`, the nested
struct, is written at the offset `8`; its ids start at the position `1` of the result. -/
theorem C16_witness :
    Supported test.msvc test.ThreeFieldsWithNestedStruct ∧
    (∃ offs szs,
      temporary1 test.msvc [.prim .double, test.Nested, .prim .char] (List.range 3)
        (SizeTArray.zeros 3) (SizeTArray.zeros 3) = .ok (offs, szs) ∧
      offs[1]? = some 8) ∧
    (∃ before after,
      _GetIdsRaw_Impl test.msvc test.ThreeFieldsWithNestedStruct (List.range 3)
        = .ok (before ++ rawImage test.msvc test.Nested ++ after) ∧
      before.length = 8) ∧
    leafCount.ofFields ([CType.prim .double, test.Nested, CType.prim .char].take 1) ≤ 8 ∧
    (∃ front back,
      GetTypeIds test.msvc test.ThreeFieldsWithNestedStruct
        = .ok (front ++ LeafIdSequence test.Nested ++ back) ∧
      front.length = 1) :=
  ⟨test.supported_ThreeFieldsWithNestedStruct,
    C16_offset_is_sum_of_sizes test.msvc 24 [.prim .double, test.Nested, .prim .char]
      test.supported_ThreeFieldsWithNestedStruct 1 test.Nested rfl⟩

/-- C17: for every supported aggregate `T` with `N` top-level fields, the offsets array
computed by `_GetIdsRaw_Impl` has `offsets[0] = 0` and, for `0 < i < N`, `offsets[i]` is
the sum of the sizes of the fields before the field `i`, without padding; the ids of the
field `i` are written from the raw index `offsets[i]` on: the `sizeof` raw entries from
there are the raw array of the field, whose non-zero entries are the ids of the field. -/
theorem C17_offsets_are_prefix_sums_of_sizes (cfg : Config) (size : Nat) (fields : List CType)
    (hT : Supported cfg (.aggr size fields)) :
    ∃ offs szs idsRaw,
      temporary1 cfg fields (List.range fields.length) (SizeTArray.zeros fields.length)
        (SizeTArray.zeros fields.length) = .ok (offs, szs) ∧
      _GetIdsRaw_Impl cfg (.aggr size fields) (List.range fields.length) = .ok idsRaw ∧
      offs[0]? = some 0 ∧
      (∀ i, 0 < i → i < fields.length →
        offs[i]? = some (((fields.take i).map (sizeof cfg)).sum)) ∧
      ∀ (i : Nat) (F : CType), fields[i]? = some F →
        ∃ pTypeIds : Nat, offs[i]? = some pTypeIds ∧
          (idsRaw.drop pTypeIds).take (sizeof cfg F) = rawImage cfg F ∧
          ((idsRaw.drop pTypeIds).take (sizeof cfg F)).filter isNonZero = LeafIdSequence F := by
  obtain ⟨offs, szs, h1, _, hoffs⟩ := offsets_of_supported cfg fields
  have hne : 0 < fields.length := by
    cases hT with
    | aggr _ _ _ hne _ _ => exact List.length_pos.2 hne
  refine ⟨offs, szs, _, h1, _GetIdsRaw_Impl_supported cfg size fields hT, ?_,
    fun i _ hi => hoffs i hi, ?_⟩
  · simpa [sumSizes] using hoffs 0 hne
  · intro i F hF
    obtain ⟨before, after, hraw, hlen, hlenF⟩ := rawImage_field_slice cfg size fields hT i F hF
    have hslice := slice_of_split _ before (rawImage cfg F) after hraw
    rw [hlen, hlenF] at hslice
    exact ⟨_, hoffs i (getElem?_lt_length hF), hslice, by rw [hslice, filter_rawImage]⟩

/-- Witness of C17: the struct `ThreeFieldsWithNestedStruct`. -/
theorem C17_witness :
    Supported test.msvc test.ThreeFieldsWithNestedStruct ∧
    ∃ offs szs idsRaw,
      temporary1 test.msvc [.prim .double, test.Nested, .prim .char] (List.range 3)
        (SizeTArray.zeros 3) (SizeTArray.zeros 3) = .ok (offs, szs) ∧
      _GetIdsRaw_Impl test.msvc test.ThreeFieldsWithNestedStruct (List.range 3) = .ok idsRaw ∧
      offs[0]? = some 0 ∧
      (∀ i, 0 < i → i < 3 →
        offs[i]? = some ((([CType.prim .double, test.Nested, CType.prim .char].take i).map
          (sizeof test.msvc)).sum)) ∧
      ∀ (i : Nat) (F : CType), [CType.prim .double, test.Nested, CType.prim .char][i]? = some F →
        ∃ pTypeIds : Nat, offs[i]? = some pTypeIds ∧
          (idsRaw.drop pTypeIds).take (sizeof test.msvc F) = rawImage test.msvc F ∧
          ((idsRaw.drop pTypeIds).take (sizeof test.msvc F)).filter isNonZero
            = LeafIdSequence F :=
  ⟨test.supported_ThreeFieldsWithNestedStruct,
    C17_offsets_are_prefix_sums_of_sizes test.msvc 24 [.prim .double, test.Nested, .prim .char]
      test.supported_ThreeFieldsWithNestedStruct⟩

/-- C18: bounds safety of the raw array. For every supported aggregate `T` (the sum of the
sizes of the fields is at most the size, at every depth), every index written into the raw
array is less than `sizeof( T )`: the single index `offsets[i]` of a fundamental or
enumeration field, the indices `offsets[i] .. offsets[i] + sizeof( F ) - 1` of a nested
aggregate `F`.  A write succeeds only inside the array, and neither `_GetIdsRaw_Impl` nor
`GetTypeIds` runs into an access out of range. -/
theorem C18_raw_writes_in_bounds (cfg : Config) (size : Nat) (fields : List CType)
    (hT : Supported cfg (.aggr size fields)) :
    (∃ idsRaw, _GetIdsRaw_Impl cfg (.aggr size fields) (List.range fields.length) = .ok idsRaw ∧
      idsRaw.length = size) ∧
    _GetIdsRaw_Impl cfg (.aggr size fields) (List.range fields.length) ≠ .error .OutOfRange ∧
    GetTypeIds cfg (.aggr size fields) ≠ .error .OutOfRange ∧
    (∀ (i : Nat) (F : CType), fields[i]? = some F →
      sumSizes cfg (fields.take i) < size ∧
      (∀ k, k < sizeof cfg F → sumSizes cfg (fields.take i) + k < size) ∧
      ∀ idsRaw : List Nat, idsRaw.length = size →
        ∃ idsRaw2, _Cast_Impl cfg F idsRaw (sumSizes cfg (fields.take i)) = .ok idsRaw2 ∧
          idsRaw2.length = size) ∧
    ∀ (data r : List Nat) (i v : Nat), writeAt data i v = .ok r → i < data.length := by
  have hsum : sumSizes cfg fields ≤ size := by
    cases hT with
    | aggr _ _ _ _ _ hsum => exact hsum
  have hlen := rawImage_length cfg _ hT
  simp only [sizeof] at hlen
  refine ⟨⟨_, _GetIdsRaw_Impl_supported cfg size fields hT, hlen⟩, ?_, ?_, ?_,
    fun data r i v h => writeAt_ok_lt h⟩
  · rw [_GetIdsRaw_Impl_supported cfg size fields hT]
    intro h
    cases h
  · rw [GetTypeIds_supported cfg size fields hT]
    intro h
    cases h
  · intro i F hF
    have hFS := hT.of_mem (List.getElem?_mem hF)
    have hpos := sizeof_pos_of_supported cfg F hFS
    have hrange := field_range_le cfg fields i F hF
    refine ⟨by omega, fun k hk => by omega, ?_⟩
    intro idsRaw hraw
    obtain ⟨raw2, h1, h2, _⟩ := _Cast_Impl_frame cfg F hFS idsRaw (sumSizes cfg (fields.take i))
      (by omega)
    exact ⟨raw2, h1, by omega⟩

/-- Witness of C18: the struct `ThreeFieldsWithNestedStruct`, of size 24. -/
theorem C18_witness :
    Supported test.msvc test.ThreeFieldsWithNestedStruct ∧
    (∃ idsRaw, _GetIdsRaw_Impl test.msvc test.ThreeFieldsWithNestedStruct (List.range 3)
        = .ok idsRaw ∧ idsRaw.length = 24) ∧
    GetTypeIds test.msvc test.ThreeFieldsWithNestedStruct ≠ .error .OutOfRange :=
  ⟨test.supported_ThreeFieldsWithNestedStruct,
    (C18_raw_writes_in_bounds test.msvc 24 [.prim .double, test.Nested, .prim .char]
      test.supported_ThreeFieldsWithNestedStruct).1,
    (C18_raw_writes_in_bounds test.msvc 24 [.prim .double, test.Nested, .prim .char]
      test.supported_ThreeFieldsWithNestedStruct).2.2.1⟩

/-- C19: writes of distinct fields never overlap. For every supported aggregate `T` and
field indices `i < j`, the range `[offsets[i], offsets[i] + sizeof(field i))` ends at or
before `offsets[j]`; populating the field `j` leaves every raw entry of the range of the
field `i` unchanged, and populating the field `i`, a nested aggregate with its trailing
zeros included, leaves every raw entry from `offsets[j]` on unchanged. -/
theorem C19_field_writes_disjoint (cfg : Config) (size : Nat) (fields : List CType)
    (hT : Supported cfg (.aggr size fields)) (i j : Nat) (Fi Fj : CType) (hij : i < j)
    (hFi : fields[i]? = some Fi) (hFj : fields[j]? = some Fj) :
    sumSizes cfg (fields.take i) + sizeof cfg Fi ≤ sumSizes cfg (fields.take j) ∧
    (∀ idsRaw : List Nat, idsRaw.length = size →
      ∃ idsRaw2, _Cast_Impl cfg Fj idsRaw (sumSizes cfg (fields.take j)) = .ok idsRaw2 ∧
        ∀ idx, sumSizes cfg (fields.take i) ≤ idx →
          idx < sumSizes cfg (fields.take i) + sizeof cfg Fi → idsRaw2[idx]? = idsRaw[idx]?) ∧
    (∀ idsRaw : List Nat, idsRaw.length = size →
      ∃ idsRaw2, _Cast_Impl cfg Fi idsRaw (sumSizes cfg (fields.take i)) = .ok idsRaw2 ∧
        ∀ idx, sumSizes cfg (fields.take j) ≤ idx → idsRaw2[idx]? = idsRaw[idx]?) := by
  have hsum : sumSizes cfg fields ≤ size := by
    cases hT with
    | aggr _ _ _ _ _ hsum => exact hsum
  have hdis := field_ranges_disjoint cfg fields i j Fi hFi hij
  have hri := field_range_le cfg fields i Fi hFi
  have hrj := field_range_le cfg fields j Fj hFj
  refine ⟨hdis, ?_, ?_⟩
  · intro idsRaw hraw
    obtain ⟨raw2, h1, _, h3⟩ := _Cast_Impl_frame cfg Fj (hT.of_mem (List.getElem?_mem hFj))
      idsRaw (sumSizes cfg (fields.take j)) (by omega)
    exact ⟨raw2, h1, fun idx _ h5 => h3 idx (Or.inl (by omega))⟩
  · intro idsRaw hraw
    obtain ⟨raw2, h1, _, h3⟩ := _Cast_Impl_frame cfg Fi (hT.of_mem (List.getElem?_mem hFi))
      idsRaw (sumSizes cfg (fields.take i)) (by omega)
    exact ⟨raw2, h1, fun idx h4 => h3 idx (Or.inr (by omega))⟩

/-- Witness of C19: in `ThreeFieldsWithNestedStruct` the nested struct (field `1`, raw
entries 8 to 15) and the last field (field `2`, raw entry 16). -/
theorem C19_witness :
    Supported test.msvc test.ThreeFieldsWithNestedStruct ∧
    sumSizes test.msvc ([CType.prim .double, test.Nested, CType.prim .char].take 1)
        + sizeof test.msvc test.Nested
      ≤ sumSizes test.msvc ([CType.prim .double, test.Nested, CType.prim .char].take 2) :=
  ⟨test.supported_ThreeFieldsWithNestedStruct,
    (C19_field_writes_disjoint test.msvc 24 [.prim .double, test.Nested, .prim .char]
      test.supported_ThreeFieldsWithNestedStruct 1 2 test.Nested (.prim .char) (by decide)
      rfl rfl).1⟩

/-- C20: for every supported aggregate `T`, every entry of `GetTypeIds<T>()` is a valid
registry id: it lies between 1 and 23 and is the id of a registered fundamental type; `0`
and values above 23 do not occur. -/
theorem C20_entries_are_registry_ids (cfg : Config) (size : Nat) (fields : List CType)
    (hT : Supported cfg (.aggr size fields)) :
    ∃ ids, GetTypeIds cfg (.aggr size fields) = .ok ids ∧
      ∀ v ∈ ids, 1 ≤ v ∧ v ≤ 23 ∧ v ≠ 0 ∧
        ∃ k : Prim, _GetIdByType k = v ∧ _GetTypeById v = some k := by
  refine ⟨_, GetTypeIds_supported cfg size fields hT, ?_⟩
  intro v hv
  rw [LeafIdSequence_eq_map_leafKinds] at hv
  obtain ⟨k, _, rfl⟩ := List.mem_map.1 hv
  exact ⟨_GetIdByType_pos k, _GetIdByType_le k, _GetIdByType_ne_zero k, k, rfl,
    _GetTypeById_GetIdByType k⟩

/-- Witness of C20: the struct `TwoFieldsTwoLevelsOfNestedStructs`. -/
theorem C20_witness :
    Supported test.msvc test.TwoFieldsTwoLevelsOfNestedStructs ∧
    ∃ ids, GetTypeIds test.msvc test.TwoFieldsTwoLevelsOfNestedStructs = .ok ids ∧
      ∀ v ∈ ids, 1 ≤ v ∧ v ≤ 23 ∧ v ≠ 0 ∧
        ∃ k : Prim, _GetIdByType k = v ∧ _GetTypeById v = some k :=
  ⟨test.supported_TwoLevels,
    C20_entries_are_registry_ids test.msvc 24 _ test.supported_TwoLevels⟩

/-- C21: flattening is total. For every type `T`, each recursive call of the mutual
recursion `_GetIdsRaw_Impl -> _Cast_Impl -> _GetIdsByType -> _GetIdsRaw_Impl` is on a field
type of strictly smaller nesting depth than `T`, and the recursion run with a bound on its
depth greater than the nesting depth of `T` never reaches the bound: it returns the result
of `_GetIdsByType<T>`, which for a supported aggregate is the raw array of `T`. -/
theorem C21_flattening_terminates (cfg : Config) (T : CType) :
    (∀ size fields, T = .aggr size fields → ∀ F ∈ fields, nestingDepth F < nestingDepth T) ∧
    (∀ bound, nestingDepth T < bound →
      _GetIdsByType_upTo cfg bound T = some (_GetIdsByType cfg T)) ∧
    (∃ r, _GetIdsByType_upTo cfg (nestingDepth T + 1) T = some r) ∧
    (Supported cfg T → is_supported_type T = true →
      _GetIdsByType_upTo cfg (nestingDepth T + 1) T = some (.ok (rawImage cfg T))) := by
  refine ⟨?_, fun bound h => _GetIdsByType_upTo_eq cfg bound T h,
    ⟨_, _GetIdsByType_upTo_eq cfg _ T (by omega)⟩, ?_⟩
  · rintro size fields rfl F hF
    exact nestingDepth_field_lt size fields F hF
  · intro hS hagg
    rw [_GetIdsByType_upTo_eq cfg _ T (by omega), (flatten_main cfg T hS).2 hagg]

/-- Witness of C21: the struct `TwoFieldsTwoLevelsOfNestedStructs`, of nesting depth 3, is
flattened within the bound 4. -/
theorem C21_witness :
    _GetIdsByType_upTo test.msvc 4 test.TwoFieldsTwoLevelsOfNestedStructs
      = some (.ok [10, 0, 0, 0, 0, 0, 0, 0, 11, 8, 0, 0, 0, 11, 0, 0, 0, 0, 0, 0, 0, 0, 0, 0]) :=
  (C21_flattening_terminates test.msvc test.TwoFieldsTwoLevelsOfNestedStructs).2.2.2
    test.supported_TwoLevels rfl

/-- C22, as stated, fails: for the struct `{ int n; void* p; }` `GetTypeIds` does not fail
with `UnsupportedType`; it returns the ids `[8, 19]`, `19` for the member of type `void*`. -/
theorem C22_counterexample :
    Prim.isPointer .void_ptr = true ∧
    GetTypeIds test.msvc test.WithVoidPointer = .ok [8, 19] ∧
    GetTypeIds test.msvc test.WithVoidPointer ≠ .error .UnsupportedType := by
  have h : GetTypeIds test.msvc test.WithVoidPointer = .ok [8, 19] :=
    GetTypeIds_supported test.msvc 16 _ test.supported_WithVoidPointer
  refine ⟨rfl, h, ?_⟩
  rw [h]
  intro hc
  cases hc

/-- C22, amended: a field of one of the registered pointer types `void*`, `const void*`,
`volatile void*`, `const volatile void*` of a supported aggregate emits its registry id,
between 19 and 22; an aggregate with a field of a pointer type that is not registered (for
example `int*`, a type of another kind) is treated as unsupported: `GetTypeIds<T>()` fails
with `UnsupportedType`. -/
theorem C22_pointer_fields (cfg : Config) (size : Nat) (before after : List CType) :
    (∀ k : Prim, Prim.isPointer k = true →
      Supported cfg (.aggr size (before ++ .prim k :: after)) →
      GetTypeIds cfg (.aggr size (before ++ .prim k :: after))
          = .ok (LeafIdSequence.ofFields before ++ [_GetIdByType k]
              ++ LeafIdSequence.ofFields after) ∧
        19 ≤ _GetIdByType k ∧ _GetIdByType k ≤ 22) ∧
    (∀ n : Nat, WellFormed cfg (.aggr size (before ++ .other n :: after)) →
      GetTypeIds cfg (.aggr size (before ++ .other n :: after)) = .error .UnsupportedType) := by
  constructor
  · intro k hk hT
    refine ⟨?_, ?_⟩
    · rw [GetTypeIds_supported cfg _ _ hT]
      simp [LeafIdSequence, LeafIdSequence_ofFields_append, LeafIdSequence.ofFields]
    · cases k <;> simp [Prim.isPointer] at hk <;> simp [_GetIdByType]
  · intro n hwf
    refine GetTypeIds_unsupported cfg size _ hwf ?_
    intro hS
    exact not_supported_other cfg n (hS.of_mem (by simp))

/-- Witness of the amended C22: `{ int; void* }` gives `[8, 19]`, `{ int; int* }` fails. -/
theorem C22_witness :
    GetTypeIds test.msvc test.WithVoidPointer = .ok [8, 19] ∧
    GetTypeIds test.msvc test.WithIntPointer = .error .UnsupportedType :=
  ⟨((C22_pointer_fields test.msvc 16 [.prim .int] []).1 .void_ptr rfl
      test.supported_WithVoidPointer).1,
    (C22_pointer_fields test.msvc 16 [.prim .int] []).2 8 test.wellFormed_WithIntPointer⟩

/-- C23: nested merge copies the nested raw array verbatim. For every supported aggregate
`T` and every top-level field `i` of `T` whose type `F` is a nested aggregate, the raw array
of `T` has `idsRaw_T[offsets[i] + k] = idsRaw_F[k]` for every `k < sizeof( F )`, where
`idsRaw_F = _GetIdsByType<F>()`, zeros included; the non-zero entries of that slice are
`GetTypeIds<F>()` in order; and the conversion to `F` writes `idsRaw_F` over `sizeof( F )`
entries of any raw array. -/
theorem C23_nested_merge_copies_verbatim (cfg : Config) (size : Nat) (fields : List CType)
    (hT : Supported cfg (.aggr size fields)) (i : Nat) (s : Nat) (fs : List CType)
    (hF : fields[i]? = some (.aggr s fs)) :
    ∃ (idsRaw_T idsRaw_F offs szs : List Nat) (p : Nat) (ids : List Nat),
      _GetIdsRaw_Impl cfg (.aggr size fields) (List.range fields.length) = .ok idsRaw_T ∧
      _GetIdsByType cfg (.aggr s fs) = .ok idsRaw_F ∧
      idsRaw_F.length = sizeof cfg (.aggr s fs) ∧
      temporary1 cfg fields (List.range fields.length) (SizeTArray.zeros fields.length)
        (SizeTArray.zeros fields.length) = .ok (offs, szs) ∧
      offs[i]? = some p ∧
      (∀ k, k < sizeof cfg (.aggr s fs) → idsRaw_T[p + k]? = idsRaw_F[k]?) ∧
      GetTypeIds cfg (.aggr s fs) = .ok ids ∧
      ((idsRaw_T.drop p).take (sizeof cfg (.aggr s fs))).filter isNonZero = ids ∧
      ∀ (idsRaw : List Nat) (q : Nat), q + s ≤ idsRaw.length →
        _Cast_Impl cfg (.aggr s fs) idsRaw q
          = .ok (idsRaw.take q ++ idsRaw_F ++ idsRaw.drop (q + s)) := by
  have hFS : Supported cfg (.aggr s fs) := hT.of_mem (List.getElem?_mem hF)
  obtain ⟨offs, szs, h1, _, hoffs⟩ := offsets_of_supported cfg fields
  obtain ⟨before, after, hraw, hlen, hlenF⟩ :=
    rawImage_field_slice cfg size fields hT i _ hF
  have hslice := slice_of_split _ before (rawImage cfg (.aggr s fs)) after hraw
  rw [hlen, hlenF] at hslice
  refine ⟨_, _, offs, szs, _, _, _GetIdsRaw_Impl_supported cfg size fields hT,
    (flatten_main cfg _ hFS).2 rfl, hlenF, h1, hoffs i (getElem?_lt_length hF), ?_,
    GetTypeIds_supported cfg s fs hFS, by rw [hslice, filter_rawImage],
    fun idsRaw q hq => _Cast_Impl_nested_copy cfg s fs hFS idsRaw q hq⟩
  intro k hk
  rw [← hlen]
  exact getElem?_of_split _ before _ after hraw k (by omega)

/-- Witness of C23: the nested struct `Nested`, the field `1` of
`ThreeFieldsWithNestedStruct`, whose raw array is copied to the raw entries 8 to 15. -/
theorem C23_witness :
    Supported test.msvc test.ThreeFieldsWithNestedStruct ∧
    ∃ (idsRaw_T idsRaw_F offs szs : List Nat) (p : Nat) (ids : List Nat),
      _GetIdsRaw_Impl test.msvc test.ThreeFieldsWithNestedStruct (List.range 3) = .ok idsRaw_T ∧
      _GetIdsByType test.msvc test.Nested = .ok idsRaw_F ∧
      idsRaw_F.length = 8 ∧
      temporary1 test.msvc [.prim .double, test.Nested, .prim .char] (List.range 3)
        (SizeTArray.zeros 3) (SizeTArray.zeros 3) = .ok (offs, szs) ∧
      offs[1]? = some p ∧
      (∀ k, k < 8 → idsRaw_T[p + k]? = idsRaw_F[k]?) ∧
      GetTypeIds test.msvc test.Nested = .ok ids ∧
      ((idsRaw_T.drop p).take 8).filter isNonZero = ids ∧
      ∀ (idsRaw : List Nat) (q : Nat), q + 8 ≤ idsRaw.length →
        _Cast_Impl test.msvc test.Nested idsRaw q
          = .ok (idsRaw.take q ++ idsRaw_F ++ idsRaw.drop (q + 8)) :=
  ⟨test.supported_ThreeFieldsWithNestedStruct,
    C23_nested_merge_copies_verbatim test.msvc 24 [.prim .double, test.Nested, .prim .char]
      test.supported_ThreeFieldsWithNestedStruct 1 8 [.prim .int, .prim .char] rfl⟩

end reflection
